import Mathlib

set_option maxHeartbeats 1000000
set_option maxRecDepth 4000

/-! Shallow embedding of the cube-simulator core of the repository
    (src/cube/common.py, src/cube/cubie.py, src/cube/cube.py and
    src/cube/constants.py).

    Modelling choices:
    * Python strings are modelled as `List Char` (`Str`), move tokens
      included; `str.split()` and `" ".join` are modelled explicitly.
    * A Python dict keyed by face letters is modelled extensionally as a
      function `Face → Option _` (dict equality in Python is extensional,
      and the keys that can ever occur are the six face letters).
    * A raised exception (`ValueError` from `Cubie.__post_init__`, the
      `UnboundLocalError` escaping `Move.rotation_loop` on an unknown
      leading character, numpy errors) is modelled as `none`.
    * `str.upper()` is modelled on the ASCII letters, the only characters
      the rest of the code ever compares against. -/

abbrev Str := List Char

abbrev Color := List Char

def cTwo : Char := '2'

def cQuote : Char := Char.ofNat 39

def spChar : Char := Char.ofNat 32

/-- Membership of a character in a character list; this models the Python
test `c in "UDRLBF"` on a one-character string `c`. -/
def memChar (c : Char) : List Char → Bool
  | [] => false
  | a :: as => (c == a) || memChar c as

/-- ASCII model of Python `str.upper()` on a single character. -/
def upChar (c : Char) : Char :=
  if 97 ≤ c.toNat ∧ c.toNat ≤ 122 then Char.ofNat (c.toNat - 32) else c

/-- Python `move.endswith(suffix)`. -/
def endsWith (m suffix : Str) : Bool := List.isSuffixOf suffix m

/-- Python `move[0]`; tokens produced by `str.split()` are never empty, so
the default is never consulted on the code paths the theorems describe. -/
def head0 (m : Str) : Char := m.headD spChar

/-- The six face letters (src/cube/constants.py). -/
inductive Face
  | U
  | D
  | F
  | B
  | R
  | L
deriving DecidableEq, Fintype

def Face.all : List Face := [Face.U, Face.D, Face.F, Face.B, Face.R, Face.L]

/-- OPPOSITE_FACE from src/cube/constants.py. -/
def OPPOSITE_FACE : Face → Face
  | Face.U => Face.D
  | Face.D => Face.U
  | Face.F => Face.B
  | Face.B => Face.F
  | Face.R => Face.L
  | Face.L => Face.R

/-- FACE_COORD from src/cube/constants.py (numpy 3-vectors as triples). -/
def FACE_COORD : Face → Int × Int × Int
  | Face.U => (0, 0, 1)
  | Face.D => (0, 0, -1)
  | Face.F => (1, 0, 0)
  | Face.B => (-1, 0, 0)
  | Face.R => (0, 1, 0)
  | Face.L => (0, -1, 0)

/-- MIDDLE_LAYER_AXIS from src/cube/constants.py, as a lookup on the
leading character (Python raises `KeyError` outside the three keys; the
code only consults it after checking `move[0] in "MES"`). -/
def MIDDLE_LAYER_AXIS? (c : Char) : Option (List Face) :=
  if c = 'M' then some [Face.R, Face.L]
  else if c = 'E' then some [Face.U, Face.D]
  else if c = 'S' then some [Face.F, Face.B]
  else none

/-- The membership test `move[0] in "UDRLBF"` of `Cubie.rotate`, returning
the face named by an uppercase face letter. -/
def faceOfChar? (c : Char) : Option Face :=
  if c = 'U' then some Face.U
  else if c = 'D' then some Face.D
  else if c = 'R' then some Face.R
  else if c = 'L' then some Face.L
  else if c = 'B' then some Face.B
  else if c = 'F' then some Face.F
  else none

/-- The membership test `move[0] in "udrlbf"` of `Cubie.rotate`, returning
the face named by the uppercased letter. -/
def lowFaceOf? (c : Char) : Option Face :=
  if c = 'u' then some Face.U
  else if c = 'd' then some Face.D
  else if c = 'r' then some Face.R
  else if c = 'l' then some Face.L
  else if c = 'b' then some Face.B
  else if c = 'f' then some Face.F
  else none

/-- `Move.base_rotation["RLXM"]` from src/cube/common.py. -/
def base_rotation_RLXM : List Face := [Face.U, Face.B, Face.D, Face.F]

/-- `Move.base_rotation["UDYE"]` from src/cube/common.py. -/
def base_rotation_UDYE : List Face := [Face.F, Face.L, Face.B, Face.R]

/-- `Move.base_rotation["FBZS"]` from src/cube/common.py. -/
def base_rotation_FBZS : List Face := [Face.U, Face.R, Face.D, Face.L]

/-- `Move.__init__`: the signed turn amount `self.direction`. -/
def direction (m : Str) : Int :=
  if endsWith m [cTwo] || endsWith m [cTwo, cQuote] then 2
  else if endsWith m [cQuote] then -1
  else 1

/-- The group selection of `Move.rotation_loop`: the first of the three
membership tests on `move[0].upper()` that succeeds (the three character
sets are disjoint, so the order only matters for the embedding's shape).
`none` models the `UnboundLocalError` raised when no test succeeds. -/
def groupCycle (c : Char) : Option (List Face) :=
  if memChar (upChar c) ['U', 'D', 'Y', 'E'] then some base_rotation_UDYE
  else if memChar (upChar c) ['R', 'L', 'X', 'M'] then some base_rotation_RLXM
  else if memChar (upChar c) ['F', 'B', 'Z', 'S'] then some base_rotation_FBZS
  else none

/-- The chirality test `self.move[0].upper() in "URFXYZMES"` of
`Move.rotation_loop`. -/
def chirality (c : Char) : Bool :=
  memChar (upChar c) ['U', 'R', 'F', 'X', 'Y', 'Z', 'M', 'E', 'S']

/-- The net index shift applied inside `Move.rotation_loop`:
`+direction` on the chirality-positive letters, `-direction` otherwise. -/
def shift (m : Str) : Int :=
  if chirality (head0 m) then direction m else - direction m

/-- The dictionary `loop` built by `Move.rotation_loop` for a cycle
`cyc` and a net shift `k`: `loop[cyc[i]] = cyc[(i + k) % 4]`, keys exactly
the four cycle faces.  The lookup default of `getD` is never used because
`(i + k).emod 4` lies in `[0, 4)`. -/
def loopFun (cyc : List Face) (k : Int) : Face → Option Face := fun f =>
  match cyc.findIdx? (fun g => g == f) with
  | some i => some (cyc.getD (((i : Int) + k).emod 4).toNat Face.U)
  | none => none

/-- `Move(move).rotation_loop` from src/cube/common.py. -/
def rotation_loop (m : Str) : Option (Face → Option Face) :=
  match groupCycle (head0 m) with
  | some cyc => some (loopFun cyc (shift m))
  | none => none

/-- `_reverse_move` from src/cube/common.py. -/
def reverseMove (m : Str) : Str :=
  if endsWith m [cTwo] || endsWith m [cTwo, cQuote] then m
  else if endsWith m [cQuote] then [head0 m]
  else [head0 m, cQuote]

/-- Python whitespace for `str.split()` (space, tab, LF, VT, FF, CR). -/
def isWs (c : Char) : Bool :=
  c.toNat = 32 || c.toNat = 9 || c.toNat = 10 || c.toNat = 13 ||
  c.toNat = 11 || c.toNat = 12

def splitWsAux : Str → Str → List Str
  | [], acc => if acc.isEmpty then [] else [acc.reverse]
  | ch :: rest, acc =>
    if isWs ch then
      if acc.isEmpty then splitWsAux rest [] else acc.reverse :: splitWsAux rest []
    else splitWsAux rest (ch :: acc)

/-- Python `moves.split()`: split on whitespace runs, dropping empties. -/
def splitWs (s : Str) : List Str := splitWsAux s []

/-- Python `" ".join(tokens)`. -/
def joinSpace : List Str → Str
  | [] => []
  | [t] => t
  | t :: u :: ts => t ++ spChar :: joinSpace (u :: ts)

/-- `reverse_moves` from src/cube/common.py: split, reverse each token,
reverse the token order, join with single spaces. -/
def reverse_moves (s : Str) : Str :=
  joinSpace (((splitWs s).map reverseMove).reverse)

/-- `CubieType` from src/cube/cubie.py. -/
inductive CubieType
  | CORNER
  | EDGE
  | CENTER
deriving DecidableEq, Fintype

/-- The `expected_colors` table of `Cubie.__post_init__`. -/
def expected_colors : CubieType → Nat
  | CubieType.CORNER => 3
  | CubieType.EDGE => 2
  | CubieType.CENTER => 1

/-- The `Cubie` dataclass: a category tag and the face-to-color dict. -/
structure Cubie where
  cubie_type : CubieType
  colors : Face → Option Color

instance : DecidableEq Cubie := fun a b =>
  decidable_of_iff (a.cubie_type = b.cubie_type ∧ ∀ f : Face, a.colors f = b.colors f)
    (by
      cases a
      cases b
      simp only [Cubie.mk.injEq]
      constructor
      · rintro ⟨h1, h2⟩
        exact ⟨h1, funext h2⟩
      · rintro ⟨h1, h2⟩
        exact ⟨h1, fun f => congrFun h2 f⟩)

/-- Membership of a face among the dict keys: `face in self.faces`. -/
def hasFace (c : Cubie) (f : Face) : Bool := (c.colors f).isSome

/-- The set of faces a cubie touches, as a Boolean indicator. -/
def faceSet (c : Cubie) : Face → Bool := fun f => hasFace c f

def add3 (p q : Int × Int × Int) : Int × Int × Int :=
  (p.1 + q.1, p.2.1 + q.2.1, p.2.2 + q.2.2)

/-- The vector sum `np.sum([FACE_COORD[face] for face in faces])` of
`Cubie.position`, as a sum over the six faces of the present ones (dict
keys are unique and vector addition is commutative, so the iteration
order of the Python dict is irrelevant). -/
def posSum (bs : Face → Bool) : Int × Int × Int :=
  Face.all.foldr (fun f acc => if bs f then add3 (FACE_COORD f) acc else acc) (0, 0, 0)

/-- `Cubie.position` (a derived property). -/
def position (c : Cubie) : Int × Int × Int := posSum (faceSet c)

def countFS (bs : Face → Bool) : Nat := (Face.all.filter bs).length

/-- `len(self.colors)`. -/
def colorCount (cols : Face → Option Color) : Nat :=
  countFS (fun f => (cols f).isSome)

def componentOK (v : Int) : Bool := (v == -1) || (v == 0) || (v == 1)

def posOK (p : Int × Int × Int) : Bool :=
  componentOK p.1 && componentOK p.2.1 && componentOK p.2.2

/-- `Cubie(cubie_type, colors)` including `__post_init__` validation:
with an empty dict the derived numpy position degenerates and `len`
raises (modelled by the count-zero test); otherwise the position is a
3-vector, each component must be in {-1, 0, 1}, and the sticker count
must match the category.  `none` models a raised exception. -/
def mkCubie (t : CubieType) (cols : Face → Option Color) : Option Cubie :=
  if colorCount cols = 0 then none
  else if posOK (posSum (fun f => (cols f).isSome)) = false then none
  else if colorCount cols ≠ expected_colors t then none
  else some ⟨t, cols⟩

/-- The dict value `loop.get(key)` materialised as total relabeling:
`rotation_loop`-produced maps move each key through the loop when
present and keep it otherwise (the `else` branch of `Cubie.rotate`). -/
def applyLoop (loop : Face → Option Face) (f : Face) : Face :=
  (loop f).getD f

/-- The unique old key sent to `f` by the relabeling, if any.  Every loop
produced by `rotation_loop` permutes the six faces (a 4-cycle power with
the two poles fixed), so the first match is the only one. -/
def preim (loop : Face → Option Face) (f : Face) : Option Face :=
  Face.all.find? (fun k => applyLoop loop k == f)

/-- The `new_colors` dict built by `Cubie.rotate`: for each old pair
`(key, value)` the new key is `loop[key]` when present, else `key`.  The
relabeling of a `rotation_loop` map is injective, so reading the new dict
at `f` returns the color of the unique preimage of `f`. -/
def relabelColors (loop : Face → Option Face) (cols : Face → Option Color) :
    Face → Option Color :=
  fun f => (preim loop f).bind cols

/-- The relabeling tail of `Cubie.rotate`: compute the loop (an unknown
leading character raises, hence `none`), rebuild the color dict and
construct the new cubie through the validating constructor. -/
def doRelabel (c : Cubie) (m : Str) : Option Cubie :=
  match rotation_loop m with
  | some loop => mkCubie c.cubie_type (relabelColors loop c.colors)
  | none => none

/-- `Cubie.rotate` from src/cube/cubie.py.  The three guard `if`s of the
source are sequential but mutually exclusive (their character classes are
disjoint), so the cascade is equivalent. -/
def cubieRotate (c : Cubie) (m : Str) : Option Cubie :=
  match faceOfChar? (head0 m) with
  | some f => if hasFace c f then doRelabel c m else some c
  | none =>
    match lowFaceOf? (head0 m) with
    | some f => if hasFace c (OPPOSITE_FACE f) then some c else doRelabel c m
    | none =>
      match MIDDLE_LAYER_AXIS? (head0 m) with
      | some poles => if poles.any (fun p => hasFace c p) then some c else doRelabel c m
      | none => doRelabel c m

/-- One pass of the list comprehension in `Cube.rotate`: rotate every
cubie by one token; an exception anywhere aborts the whole call. -/
def cubiesRotate1 (t : Str) : List Cubie → Option (List Cubie)
  | [] => some []
  | c :: cs =>
    match cubieRotate c t, cubiesRotate1 t cs with
    | some c', some cs' => some (c' :: cs')
    | _, _ => none

/-- The `for move in moves.split()` loop of `Cube.rotate` over an
explicit token list. -/
def rotateTokens (cs : List Cubie) : List Str → Option (List Cubie)
  | [] => some cs
  | t :: ts =>
    match cubiesRotate1 t cs with
    | some cs' => rotateTokens cs' ts
    | none => none

/-- `Cube.rotate(moves)` from src/cube/cube.py. -/
def cubeRotate (cs : List Cubie) (s : Str) : Option (List Cubie) :=
  rotateTokens cs (splitWs s)

def white : Color := ['w', 'h', 'i', 't', 'e']
def yellow : Color := ['y', 'e', 'l', 'l', 'o', 'w']
def green : Color := ['g', 'r', 'e', 'e', 'n']
def blue : Color := ['b', 'l', 'u', 'e']
def red : Color := ['r', 'e', 'd']
def orange : Color := ['o', 'r', 'a', 'n', 'g', 'e']

/-- A color dict from an association list (keys distinct at all uses). -/
def mkColors (l : List (Face × Color)) : Face → Option Color :=
  fun f => (l.find? (fun p => p.1 == f)).map Prod.snd

/-- `Cube._create_solved_cube` from src/cube/cube.py: 6 centers, then 12
edges, then 8 corners, in source order. -/
def solvedCubies : List Cubie :=
  [⟨CubieType.CENTER, mkColors [(Face.U, white)]⟩,
   ⟨CubieType.CENTER, mkColors [(Face.D, yellow)]⟩,
   ⟨CubieType.CENTER, mkColors [(Face.F, green)]⟩,
   ⟨CubieType.CENTER, mkColors [(Face.B, blue)]⟩,
   ⟨CubieType.CENTER, mkColors [(Face.R, red)]⟩,
   ⟨CubieType.CENTER, mkColors [(Face.L, orange)]⟩,
   ⟨CubieType.EDGE, mkColors [(Face.R, red), (Face.F, green)]⟩,
   ⟨CubieType.EDGE, mkColors [(Face.L, orange), (Face.F, green)]⟩,
   ⟨CubieType.EDGE, mkColors [(Face.L, orange), (Face.B, blue)]⟩,
   ⟨CubieType.EDGE, mkColors [(Face.R, red), (Face.B, blue)]⟩,
   ⟨CubieType.EDGE, mkColors [(Face.U, white), (Face.F, green)]⟩,
   ⟨CubieType.EDGE, mkColors [(Face.D, yellow), (Face.F, green)]⟩,
   ⟨CubieType.EDGE, mkColors [(Face.D, yellow), (Face.B, blue)]⟩,
   ⟨CubieType.EDGE, mkColors [(Face.U, white), (Face.B, blue)]⟩,
   ⟨CubieType.EDGE, mkColors [(Face.U, white), (Face.R, red)]⟩,
   ⟨CubieType.EDGE, mkColors [(Face.U, white), (Face.L, orange)]⟩,
   ⟨CubieType.EDGE, mkColors [(Face.D, yellow), (Face.L, orange)]⟩,
   ⟨CubieType.EDGE, mkColors [(Face.D, yellow), (Face.R, red)]⟩,
   ⟨CubieType.CORNER, mkColors [(Face.U, white), (Face.R, red), (Face.F, green)]⟩,
   ⟨CubieType.CORNER, mkColors [(Face.U, white), (Face.L, orange), (Face.F, green)]⟩,
   ⟨CubieType.CORNER, mkColors [(Face.U, white), (Face.L, orange), (Face.B, blue)]⟩,
   ⟨CubieType.CORNER, mkColors [(Face.U, white), (Face.R, red), (Face.B, blue)]⟩,
   ⟨CubieType.CORNER, mkColors [(Face.D, yellow), (Face.R, red), (Face.F, green)]⟩,
   ⟨CubieType.CORNER, mkColors [(Face.D, yellow), (Face.L, orange), (Face.F, green)]⟩,
   ⟨CubieType.CORNER, mkColors [(Face.D, yellow), (Face.L, orange), (Face.B, blue)]⟩,
   ⟨CubieType.CORNER, mkColors [(Face.D, yellow), (Face.R, red), (Face.B, blue)]⟩]

/-- A leading character the interpreter recognizes: exactly those for
which `Move.rotation_loop` selects a cycle instead of raising. -/
def recognizedHead (c : Char) : Bool := (groupCycle c).isSome

/-- A well-formed (recognized) move token: a recognized leading character
followed by one of the four documented suffixes. -/
def wfToken (m : Str) : Bool :=
  match m with
  | [h] => recognizedHead h
  | [h, s] => recognizedHead h && ((s == cQuote) || (s == cTwo))
  | [h, s, t] => recognizedHead h && (s == cTwo) && (t == cQuote)
  | _ => false

/-- The property `Cubie.__post_init__` establishes for every cubie the
program can construct: the sticker count matches the category. -/
def wfCubie (c : Cubie) : Bool :=
  colorCount c.colors = expected_colors c.cubie_type

/-- States reachable from the solved cube by `Cube.rotate` calls whose
tokens are all recognized. -/
inductive Reachable : List Cubie → Prop
  | solved : Reachable solvedCubies
  | step {s : List Cubie} (mv : Str) (s' : List Cubie)
      (hwf : ∀ t ∈ splitWs mv, wfToken t = true)
      (hr : cubeRotate s mv = some s')
      (hs : Reachable s) : Reachable s'

def nzc (v : Int) : Nat := if v == 0 then 0 else 1

/-- Number of nonzero components of a derived position. -/
def nonzeroCount (p : Int × Int × Int) : Nat := nzc p.1 + nzc p.2.1 + nzc p.2.2

/-- The geometric part of the spec's piece invariant, as a property of the
face set alone: components in {-1, 0, 1} and nonzero-component count equal
to the sticker count. -/
def geomOK (bs : Face → Bool) : Bool :=
  posOK (posSum bs) && (nonzeroCount (posSum bs) == countFS bs)

/-- The inverse of the face permutation induced by a relabeling map. -/
def sigma (cyc : List Face) (k : Int) (f : Face) : Face :=
  (preim (loopFun cyc k) f).getD f

/-- A cycle actually produced by `groupCycle`. -/
def IsCycle (cyc : List Face) : Prop :=
  cyc = base_rotation_UDYE ∨ cyc = base_rotation_RLXM ∨ cyc = base_rotation_FBZS

/-- A net shift actually produced by `shift` on a recognized token. -/
def IsShift (k : Int) : Prop := k = 1 ∨ k = -1 ∨ k = 2 ∨ k = -2

/-- The guard cascade of `Cubie.rotate` as a predicate on the leading
character and the face set: `true` iff the cubie is relabeled. -/
def affectedB (h : Char) (bs : Face → Bool) : Bool :=
  match faceOfChar? h with
  | some f => bs f
  | none =>
    match lowFaceOf? h with
    | some f => !bs (OPPOSITE_FACE f)
    | none =>
      match MIDDLE_LAYER_AXIS? h with
      | some poles => !(poles.any bs)
      | none => true

/-- Number of cubies of a given category in a state. -/
def countType (t : CubieType) (s : List Cubie) : Nat :=
  (s.filter (fun c => c.cubie_type == t)).length

/-- No two cubies of the list share a derived position. -/
def distinctPos : List Cubie → Bool
  | [] => true
  | c :: cs => cs.all (fun d => !(decide (position d = position c))) && distinctPos cs

/-- C2's turn amount, in the claim's words: a token ending in `2` or `2'`
has magnitude 2; one ending in `'` only has magnitude -1; else +1. -/
def claimMagnitude (m : Str) : Int :=
  if endsWith m [cTwo] || endsWith m [cTwo, cQuote] then 2
  else if endsWith m [cQuote] then -1
  else 1

/-- C2's chirality sign: +1 when the leading character is
case-insensitively one of U, R, F, X, Y, Z, M, E, S, else -1. -/
def claimSign (c : Char) : Int :=
  if memChar (upChar c) ['U', 'R', 'F', 'X', 'Y', 'Z', 'M', 'E', 'S'] then 1 else -1

/-- C2's axis groups and cycles, in the claim's words: the X-axis group
R/L/X/M with cycle U→B→D→F, the Y-axis group U/D/Y/E with cycle F→L→B→R,
the Z-axis group F/B/Z/S with cycle U→R→D→L (case-insensitive). -/
def claimCycle (c : Char) : Option (List Face) :=
  if memChar (upChar c) ['R', 'L', 'X', 'M'] then
    some [Face.U, Face.B, Face.D, Face.F]
  else if memChar (upChar c) ['U', 'D', 'Y', 'E'] then
    some [Face.F, Face.L, Face.B, Face.R]
  else if memChar (upChar c) ['F', 'B', 'Z', 'S'] then
    some [Face.U, Face.R, Face.D, Face.L]
  else none

/-- The spec's per-piece invariant: sticker count matches the category,
every component of the derived position is in {-1, 0, 1}, and the number
of nonzero components equals the sticker count. -/
def cubieOK (c : Cubie) : Prop :=
  colorCount c.colors = expected_colors c.cubie_type ∧
  posOK (position c) = true ∧
  nonzeroCount (position c) = colorCount c.colors

/-- The state invariant the code actually maintains: 26 pieces (6
centers, 12 edges and 8 corners — the spec's total of 20 miscounts its
own breakdown), pairwise distinct derived positions, all pieces valid. -/
def StateOK (s : List Cubie) : Prop :=
  s.length = 26 ∧ countType CubieType.CENTER s = 6 ∧
  countType CubieType.EDGE s = 12 ∧ countType CubieType.CORNER s = 8 ∧
  distinctPos s = true ∧ ∀ c ∈ s, wfCubie c = true ∧ geomOK (faceSet c) = true

/-- The sequence "R U R' U'". -/
def seqRURU : Str :=
  ['R', spChar, 'U', spChar, 'R', cQuote, spChar, 'U', cQuote]

/-- The sequence "U R U' R'". -/
def seqURUR : Str :=
  ['U', spChar, 'R', spChar, 'U', cQuote, spChar, 'R', cQuote]

/-- The malformed token "R3". -/
def tokR3 : Str := ['R', '3']

/-! Token-level lemmas. -/

lemma memChar_eq_true_iff (c : Char) (l : List Char) : memChar c l = true ↔ c ∈ l := by
  induction l with
  | nil => simp [memChar]
  | cons a as ih => simp [memChar, ih, beq_iff_eq]

lemma head0_cons (a : Char) (l : Str) : head0 (a :: l) = a := rfl

lemma recognizedHead_ne_two (h : Char) (hr : recognizedHead h = true) : h ≠ cTwo := by
  rintro rfl
  revert hr
  decide

lemma recognizedHead_ne_quote (h : Char) (hr : recognizedHead h = true) : h ≠ cQuote := by
  rintro rfl
  revert hr
  decide

lemma wfToken_shape (m : Str) (hm : wfToken m = true) :
    ∃ h : Char, recognizedHead h = true ∧
      (m = [h] ∨ m = [h, cQuote] ∨ m = [h, cTwo] ∨ m = [h, cTwo, cQuote]) := by
  match m with
  | [] => simp [wfToken] at hm
  | [h] =>
    refine ⟨h, by simpa [wfToken] using hm, Or.inl rfl⟩
  | [h, s] =>
    simp only [wfToken, Bool.and_eq_true, Bool.or_eq_true, beq_iff_eq] at hm
    obtain ⟨h1, h2 | h2⟩ := hm <;> subst h2
    · exact ⟨h, h1, Or.inr (Or.inl rfl)⟩
    · exact ⟨h, h1, Or.inr (Or.inr (Or.inl rfl))⟩
  | [h, s, t] =>
    simp only [wfToken, Bool.and_eq_true, beq_iff_eq] at hm
    obtain ⟨⟨h1, h2⟩, h3⟩ := hm
    subst h2
    subst h3
    exact ⟨h, h1, Or.inr (Or.inr (Or.inr rfl))⟩
  | _ :: _ :: _ :: _ :: _ => simp [wfToken] at hm

lemma endsWith_one (a b : Char) : endsWith [a] [b] = (b == a) := by
  simp [endsWith, List.isSuffixOf, List.isPrefixOf]

lemma endsWith_one_two (a c d : Char) : endsWith [a] [c, d] = false := by
  simp [endsWith, List.isSuffixOf, List.isPrefixOf]

lemma endsWith_two_one (a b c : Char) : endsWith [a, b] [c] = (c == b) := by
  simp [endsWith, List.isSuffixOf, List.isPrefixOf]

lemma endsWith_two_two (a b c d : Char) :
    endsWith [a, b] [c, d] = ((d == b) && (c == a)) := by
  simp [endsWith, List.isSuffixOf, List.isPrefixOf]

lemma endsWith_three_one (a b c d : Char) : endsWith [a, b, c] [d] = (d == c) := by
  simp [endsWith, List.isSuffixOf, List.isPrefixOf]

lemma endsWith_three_two (a b c d e : Char) :
    endsWith [a, b, c] [d, e] = ((e == c) && (d == b)) := by
  simp [endsWith, List.isSuffixOf, List.isPrefixOf]

lemma direction_single (h : Char) (h2 : h ≠ cTwo) (hq : h ≠ cQuote) :
    direction [h] = 1 := by
  simp [direction, endsWith_one, endsWith_one_two, beq_iff_eq, Ne.symm h2, Ne.symm hq]

lemma direction_prime (h : Char) (h2 : h ≠ cTwo) : direction [h, cQuote] = -1 := by
  simp [direction, endsWith_two_one, endsWith_two_two, beq_iff_eq, Ne.symm h2,
    (by decide : ¬cTwo = cQuote)]

lemma direction_two (h : Char) : direction [h, cTwo] = 2 := by
  simp [direction, endsWith_two_one]

lemma direction_twoPrime (h : Char) : direction [h, cTwo, cQuote] = 2 := by
  simp [direction, endsWith_three_one, endsWith_three_two]

lemma reverseMove_single (h : Char) (h2 : h ≠ cTwo) (hq : h ≠ cQuote) :
    reverseMove [h] = [h, cQuote] := by
  simp [reverseMove, endsWith_one, endsWith_one_two, beq_iff_eq, Ne.symm h2,
    Ne.symm hq, head0_cons]

lemma reverseMove_prime (h : Char) (h2 : h ≠ cTwo) : reverseMove [h, cQuote] = [h] := by
  simp [reverseMove, endsWith_two_one, endsWith_two_two, beq_iff_eq, Ne.symm h2,
    head0_cons, (by decide : ¬cTwo = cQuote)]

lemma reverseMove_two (h : Char) : reverseMove [h, cTwo] = [h, cTwo] := by
  simp [reverseMove, endsWith_two_one]

lemma reverseMove_twoPrime (h : Char) :
    reverseMove [h, cTwo, cQuote] = [h, cTwo, cQuote] := by
  simp [reverseMove, endsWith_three_one, endsWith_three_two]

lemma wfToken_single (h : Char) (hr : recognizedHead h = true) : wfToken [h] = true := by
  simpa [wfToken] using hr

lemma wfToken_prime (h : Char) (hr : recognizedHead h = true) :
    wfToken [h, cQuote] = true := by
  simp [wfToken, hr]

lemma wfToken_two (h : Char) (hr : recognizedHead h = true) :
    wfToken [h, cTwo] = true := by
  simp [wfToken, hr]

lemma wfToken_twoPrime (h : Char) (hr : recognizedHead h = true) :
    wfToken [h, cTwo, cQuote] = true := by
  simp [wfToken, hr]

/-- Everything the inverse-law proof needs to know about a recognized
token and its `_reverse_move` image. -/
lemma token_data (m : Str) (hm : wfToken m = true) :
    recognizedHead (head0 m) = true ∧
    wfToken (reverseMove m) = true ∧
    head0 (reverseMove m) = head0 m ∧
    reverseMove (reverseMove m) = m ∧
    ((shift m = 1 ∧ shift (reverseMove m) = -1) ∨
     (shift m = -1 ∧ shift (reverseMove m) = 1) ∨
     (shift m = 2 ∧ shift (reverseMove m) = 2) ∨
     (shift m = -2 ∧ shift (reverseMove m) = -2)) := by
  obtain ⟨h, hr, hs⟩ := wfToken_shape m hm
  have h2 := recognizedHead_ne_two h hr
  have hq := recognizedHead_ne_quote h hr
  rcases hs with rfl | rfl | rfl | rfl
  · rw [reverseMove_single h h2 hq]
    refine ⟨hr, wfToken_prime h hr, rfl, reverseMove_prime h h2, ?_⟩
    by_cases hch : chirality h = true
    · left
      constructor <;>
        simp [shift, head0_cons, hch, direction_single h h2 hq, direction_prime h h2]
    · rw [Bool.not_eq_true] at hch
      right; left
      constructor <;>
        simp [shift, head0_cons, hch, direction_single h h2 hq, direction_prime h h2]
  · rw [reverseMove_prime h h2]
    refine ⟨hr, wfToken_single h hr, rfl, reverseMove_single h h2 hq, ?_⟩
    by_cases hch : chirality h = true
    · right; left
      constructor <;>
        simp [shift, head0_cons, hch, direction_single h h2 hq, direction_prime h h2]
    · rw [Bool.not_eq_true] at hch
      left
      constructor <;>
        simp [shift, head0_cons, hch, direction_single h h2 hq, direction_prime h h2]
  · rw [reverseMove_two h]
    refine ⟨hr, wfToken_two h hr, rfl, reverseMove_two h, ?_⟩
    by_cases hch : chirality h = true
    · right; right; left
      constructor <;> simp [shift, head0_cons, hch, direction_two h]
    · rw [Bool.not_eq_true] at hch
      right; right; right
      constructor <;> simp [shift, head0_cons, hch, direction_two h]
  · rw [reverseMove_twoPrime h]
    refine ⟨hr, wfToken_twoPrime h hr, rfl, reverseMove_twoPrime h, ?_⟩
    by_cases hch : chirality h = true
    · right; right; left
      constructor <;> simp [shift, head0_cons, hch, direction_twoPrime h]
    · rw [Bool.not_eq_true] at hch
      right; right; right
      constructor <;> simp [shift, head0_cons, hch, direction_twoPrime h]

/-! Permutation lemmas about the relabeling maps. -/

lemma preim_eq_sigma (cyc : List Face) (k : Int) (hc : IsCycle cyc) (hk : IsShift k)
    (f : Face) : preim (loopFun cyc k) f = some (sigma cyc k f) := by
  rcases hc with rfl | rfl | rfl <;> rcases hk with rfl | rfl | rfl | rfl <;>
    revert f <;> decide

lemma relabelColors_apply (cyc : List Face) (k : Int) (hc : IsCycle cyc) (hk : IsShift k)
    (cols : Face → Option Color) (f : Face) :
    relabelColors (loopFun cyc k) cols f = cols (sigma cyc k f) := by
  unfold relabelColors
  rw [preim_eq_sigma cyc k hc hk f]
  rfl

lemma sigma_pole (cyc : List Face) (k : Int) (hc : IsCycle cyc) (hk : IsShift k)
    (f : Face) (hf : f ∉ cyc) : sigma cyc k f = f := by
  rcases hc with rfl | rfl | rfl <;> rcases hk with rfl | rfl | rfl | rfl <;>
    revert f <;> decide

lemma sigma_inv (cyc : List Face) (k1 k2 : Int) (hc : IsCycle cyc)
    (hk : (k1 = 1 ∧ k2 = -1) ∨ (k1 = -1 ∧ k2 = 1) ∨ (k1 = 2 ∧ k2 = 2) ∨
      (k1 = -2 ∧ k2 = -2))
    (f : Face) : sigma cyc k1 (sigma cyc k2 f) = f := by
  rcases hc with rfl | rfl | rfl <;>
    rcases hk with ⟨rfl, rfl⟩ | ⟨rfl, rfl⟩ | ⟨rfl, rfl⟩ | ⟨rfl, rfl⟩ <;>
    revert f <;> decide

lemma sigma_surj (cyc : List Face) (k : Int) (hc : IsCycle cyc) (hk : IsShift k)
    (f : Face) : ∃ g, sigma cyc k g = f := by
  rcases hc with rfl | rfl | rfl <;> rcases hk with rfl | rfl | rfl | rfl <;>
    revert f <;> decide

lemma sigma_four (cyc : List Face) (k : Int) (hc : IsCycle cyc) (hk : k = 1 ∨ k = -1)
    (f : Face) : sigma cyc k (sigma cyc k (sigma cyc k (sigma cyc k f))) = f := by
  rcases hc with rfl | rfl | rfl <;> rcases hk with rfl | rfl <;> revert f <;> decide

lemma sigma_double (cyc : List Face) (k k2 : Int) (hc : IsCycle cyc)
    (hk : (k = 1 ∧ k2 = 2) ∨ (k = -1 ∧ k2 = -2)) (f : Face) :
    sigma cyc k (sigma cyc k f) = sigma cyc k2 f := by
  rcases hc with rfl | rfl | rfl <;> rcases hk with ⟨rfl, rfl⟩ | ⟨rfl, rfl⟩ <;>
    revert f <;> decide

lemma countFS_sigma (cyc : List Face) (k : Int) (hc : IsCycle cyc) (hk : IsShift k)
    (bs : Face → Bool) : countFS (fun f => bs (sigma cyc k f)) = countFS bs := by
  rcases hc with rfl | rfl | rfl <;> rcases hk with rfl | rfl | rfl | rfl <;>
    revert bs <;> decide

lemma geomOK_sigma (cyc : List Face) (k : Int) (hc : IsCycle cyc) (hk : IsShift k)
    (bs : Face → Bool) (hbs : geomOK bs = true) :
    geomOK (fun f => bs (sigma cyc k f)) = true := by
  rcases hc with rfl | rfl | rfl <;> rcases hk with rfl | rfl | rfl | rfl <;>
    revert bs <;> decide

lemma posOK_posSum (bs : Face → Bool) : posOK (posSum bs) = true := by
  revert bs
  decide

lemma posSum_inj_geomOK (bs1 bs2 : Face → Bool) (h1 : geomOK bs1 = true)
    (h2 : geomOK bs2 = true) (hp : posSum bs1 = posSum bs2) (f : Face) :
    bs1 f = bs2 f := by
  revert f
  revert bs1 bs2
  decide

/-! Guard-inversion lemmas and the per-token characterization of
`Cubie.rotate`. -/

lemma faceOfChar?_inv (c : Char) (f : Face) (h : faceOfChar? c = some f) :
    (c = 'U' ∧ f = Face.U) ∨ (c = 'D' ∧ f = Face.D) ∨ (c = 'R' ∧ f = Face.R) ∨
    (c = 'L' ∧ f = Face.L) ∨ (c = 'B' ∧ f = Face.B) ∨ (c = 'F' ∧ f = Face.F) := by
  unfold faceOfChar? at h
  split_ifs at h <;> simp_all

lemma lowFaceOf?_inv (c : Char) (f : Face) (h : lowFaceOf? c = some f) :
    (c = 'u' ∧ f = Face.U) ∨ (c = 'd' ∧ f = Face.D) ∨ (c = 'r' ∧ f = Face.R) ∨
    (c = 'l' ∧ f = Face.L) ∨ (c = 'b' ∧ f = Face.B) ∨ (c = 'f' ∧ f = Face.F) := by
  unfold lowFaceOf? at h
  split_ifs at h <;> simp_all

lemma axisPoles_inv (c : Char) (poles : List Face) (h : MIDDLE_LAYER_AXIS? c = some poles) :
    (c = 'M' ∧ poles = [Face.R, Face.L]) ∨ (c = 'E' ∧ poles = [Face.U, Face.D]) ∨
    (c = 'S' ∧ poles = [Face.F, Face.B]) := by
  unfold MIDDLE_LAYER_AXIS? at h
  split_ifs at h <;> simp_all

lemma groupCycle_cases (c : Char) (cyc : List Face) (h : groupCycle c = some cyc) :
    IsCycle cyc := by
  unfold groupCycle at h
  split_ifs at h <;> simp_all [IsCycle]

/-- The guard of `Cubie.rotate` only reads pole faces of the move's own
axis, and the relabeling fixes those, so affectedness is invariant under
the move's own relabeling. -/
lemma affectedB_sigma (h : Char) (cyc : List Face) (k : Int)
    (hg : groupCycle h = some cyc) (hk : IsShift k) (bs : Face → Bool) :
    affectedB h (fun f => bs (sigma cyc k f)) = affectedB h bs := by
  have hc := groupCycle_cases h cyc hg
  have hc2 := hc
  unfold affectedB
  cases hf : faceOfChar? h with
  | some f =>
    simp only [hf]
    rcases faceOfChar?_inv h f hf with ⟨rfl, rfl⟩ | ⟨rfl, rfl⟩ | ⟨rfl, rfl⟩ |
      ⟨rfl, rfl⟩ | ⟨rfl, rfl⟩ | ⟨rfl, rfl⟩ <;>
      rcases hc2 with rfl | rfl | rfl <;>
      first
        | exact congrArg bs (sigma_pole _ k hc hk _ (by decide))
        | (exfalso; revert hg; decide)
  | none =>
    cases hl : lowFaceOf? h with
    | some f =>
      simp only [hf, hl]
      rcases lowFaceOf?_inv h f hl with ⟨rfl, rfl⟩ | ⟨rfl, rfl⟩ | ⟨rfl, rfl⟩ |
        ⟨rfl, rfl⟩ | ⟨rfl, rfl⟩ | ⟨rfl, rfl⟩ <;>
        simp only [OPPOSITE_FACE] <;>
        rcases hc2 with rfl | rfl | rfl <;>
        first
          | exact congrArg (fun x => !bs x) (sigma_pole _ k hc hk _ (by decide))
          | (exfalso; revert hg; decide)
    | none =>
      cases ha : MIDDLE_LAYER_AXIS? h with
      | some poles =>
        simp only [hf, hl, ha]
        rcases axisPoles_inv h poles ha with ⟨rfl, rfl⟩ | ⟨rfl, rfl⟩ | ⟨rfl, rfl⟩ <;>
          rcases hc2 with rfl | rfl | rfl <;>
          first
            | (simp only [List.any_cons, List.any_nil, Bool.or_false]
               rw [sigma_pole _ k hc hk _ (by decide), sigma_pole _ k hc hk _ (by decide)])
            | (exfalso; revert hg; decide)
      | none =>
        simp only [hf, hl, ha]

lemma wfCubie_count (c : Cubie) (hc : wfCubie c = true) :
    colorCount c.colors = expected_colors c.cubie_type := by
  simpa [wfCubie] using hc

lemma mkCubie_some (t : CubieType) (cols : Face → Option Color)
    (hcount : colorCount cols = expected_colors t) :
    mkCubie t cols = some ⟨t, cols⟩ := by
  unfold mkCubie
  have h0 : ¬colorCount cols = 0 := by
    rw [hcount]
    cases t <;> decide
  rw [if_neg h0, if_neg (by simp [posOK_posSum]), if_neg (not_not_intro hcount)]

lemma colorCount_relabel (cyc : List Face) (k : Int) (hc : IsCycle cyc) (hk : IsShift k)
    (cols : Face → Option Color) :
    colorCount (relabelColors (loopFun cyc k) cols) = colorCount cols := by
  unfold colorCount
  have hfun : (fun f => ((relabelColors (loopFun cyc k) cols) f).isSome) =
      (fun f => (fun g => (cols g).isSome) (sigma cyc k f)) := by
    funext f
    rw [relabelColors_apply cyc k hc hk cols f]
  rw [hfun]
  exact countFS_sigma cyc k hc hk (fun g => (cols g).isSome)

lemma faceSet_relabel (t : CubieType) (cyc : List Face) (k : Int) (hc : IsCycle cyc)
    (hk : IsShift k) (cols : Face → Option Color) (f : Face) :
    faceSet ⟨t, relabelColors (loopFun cyc k) cols⟩ f =
      (fun g => (cols g).isSome) (sigma cyc k f) := by
  simp only [faceSet, hasFace, relabelColors_apply cyc k hc hk cols f]

/-- Characterization of `Cubie.rotate` on a recognized token applied to a
constructible cubie: it succeeds, and returns either the cubie itself
(guard) or the relabeling through the move's cycle and shift. -/
lemma cubieRotate_char (m : Str) (hm : wfToken m = true) (c : Cubie)
    (hc : wfCubie c = true) :
    ∃ cyc, groupCycle (head0 m) = some cyc ∧ IsCycle cyc ∧
      ((affectedB (head0 m) (faceSet c) = false ∧ cubieRotate c m = some c) ∨
       (affectedB (head0 m) (faceSet c) = true ∧
        cubieRotate c m =
          some ⟨c.cubie_type, relabelColors (loopFun cyc (shift m)) c.colors⟩)) := by
  obtain ⟨hr, _, _, _, hsh⟩ := token_data m hm
  have hks : IsShift (shift m) := by
    rcases hsh with ⟨h1, _⟩ | ⟨h1, _⟩ | ⟨h1, _⟩ | ⟨h1, _⟩ <;> rw [h1] <;>
      simp [IsShift]
  obtain ⟨cyc, hg⟩ : ∃ cyc, groupCycle (head0 m) = some cyc := by
    unfold recognizedHead at hr
    exact Option.isSome_iff_exists.mp hr
  have hcyc := groupCycle_cases _ _ hg
  refine ⟨cyc, hg, hcyc, ?_⟩
  have hrel : doRelabel c m =
      some ⟨c.cubie_type, relabelColors (loopFun cyc (shift m)) c.colors⟩ := by
    unfold doRelabel rotation_loop
    rw [hg]
    exact mkCubie_some _ _
      (by rw [colorCount_relabel cyc (shift m) hcyc hks]; exact wfCubie_count c hc)
  unfold cubieRotate affectedB
  cases hf : faceOfChar? (head0 m) with
  | some f =>
    simp only [hf]
    by_cases hface : hasFace c f = true
    · right
      rw [if_pos hface]
      exact ⟨hface, hrel⟩
    · left
      rw [Bool.not_eq_true] at hface
      rw [if_neg (by simp [hface])]
      exact ⟨hface, rfl⟩
  | none =>
    cases hl : lowFaceOf? (head0 m) with
    | some f =>
      simp only [hf, hl]
      by_cases hface : hasFace c (OPPOSITE_FACE f) = true
      · left
        rw [if_pos hface]
        exact ⟨by simp [faceSet, hface], rfl⟩
      · right
        rw [Bool.not_eq_true] at hface
        rw [if_neg (by simp [hface])]
        exact ⟨by simp [faceSet, hface], hrel⟩
    | none =>
      cases ha : MIDDLE_LAYER_AXIS? (head0 m) with
      | some poles =>
        simp only [hf, hl, ha]
        by_cases hany : poles.any (fun p => hasFace c p) = true
        · left
          rw [if_pos hany]
          exact ⟨by simp [faceSet]; simpa using hany, rfl⟩
        · right
          rw [Bool.not_eq_true] at hany
          rw [if_neg (by simp [hany])]
          exact ⟨by simp [faceSet]; simpa using hany, hrel⟩
      | none =>
        simp only [hf, hl, ha]
        right
        exact ⟨trivial, hrel⟩

lemma shift_isShift (m : Str) (hm : wfToken m = true) : IsShift (shift m) := by
  obtain ⟨_, _, _, _, hsh⟩ := token_data m hm
  rcases hsh with ⟨h1, _⟩ | ⟨h1, _⟩ | ⟨h1, _⟩ | ⟨h1, _⟩ <;> rw [h1] <;> simp [IsShift]

lemma wfCubie_intro (x : Cubie)
    (h : colorCount x.colors = expected_colors x.cubie_type) : wfCubie x = true := by
  simp [wfCubie, h]

lemma Cubie.ext_colors (a b : Cubie) (h1 : a.cubie_type = b.cubie_type)
    (h2 : ∀ f, a.colors f = b.colors f) : a = b := by
  cases a
  cases b
  rw [Cubie.mk.injEq]
  exact ⟨h1, funext h2⟩

lemma faceSet_relabel_fun (t : CubieType) (cyc : List Face) (k : Int) (hc : IsCycle cyc)
    (hk : IsShift k) (cols : Face → Option Color) :
    faceSet ⟨t, relabelColors (loopFun cyc k) cols⟩ =
      (fun f => faceSet ⟨t, cols⟩ (sigma cyc k f)) := by
  funext f
  exact faceSet_relabel t cyc k hc hk cols f

/-- Applying one recognized token and then its `_reverse_move` image
restores any constructible cubie exactly. -/
lemma cubie_token_inverse (m : Str) (hm : wfToken m = true) (c : Cubie)
    (hc : wfCubie c = true) :
    ∃ c1, cubieRotate c m = some c1 ∧ wfCubie c1 = true ∧
      cubieRotate c1 (reverseMove m) = some c := by
  obtain ⟨hr, hwfrev, hhead, hrevrev, hsh⟩ := token_data m hm
  have hks : IsShift (shift m) := shift_isShift m hm
  have hksr : IsShift (shift (reverseMove m)) := shift_isShift _ hwfrev
  obtain ⟨cyc, hg, hcyc, hcase⟩ := cubieRotate_char m hm c hc
  rcases hcase with ⟨haff, heq⟩ | ⟨haff, heq⟩
  · refine ⟨c, heq, hc, ?_⟩
    obtain ⟨cyc', hg', hcyc', hcase'⟩ := cubieRotate_char (reverseMove m) hwfrev c hc
    rcases hcase' with ⟨haff', heq'⟩ | ⟨haff', heq'⟩
    · exact heq'
    · rw [hhead] at haff'
      simp [haff] at haff'
  · have hwf1 : wfCubie ⟨c.cubie_type, relabelColors (loopFun cyc (shift m)) c.colors⟩ = true := by
      apply wfCubie_intro
      show colorCount (relabelColors (loopFun cyc (shift m)) c.colors) =
        expected_colors c.cubie_type
      rw [colorCount_relabel cyc (shift m) hcyc hks]
      exact wfCubie_count c hc
    refine ⟨_, heq, hwf1, ?_⟩
    obtain ⟨cyc', hg', hcyc', hcase'⟩ :=
      cubieRotate_char (reverseMove m) hwfrev _ hwf1
    rw [hhead] at hg'
    have hcc : cyc' = cyc := by
      rw [hg] at hg'
      exact (Option.some.inj hg').symm
    rw [hcc] at hcase'
    have haff1 : affectedB (head0 m)
        (faceSet ⟨c.cubie_type, relabelColors (loopFun cyc (shift m)) c.colors⟩) = true := by
      rw [faceSet_relabel_fun c.cubie_type cyc (shift m) hcyc hks c.colors]
      have hsig := affectedB_sigma (head0 m) cyc (shift m) hg hks (faceSet c)
      calc affectedB (head0 m) (fun f => faceSet ⟨c.cubie_type, c.colors⟩ (sigma cyc (shift m) f))
          = affectedB (head0 m) (fun f => faceSet c (sigma cyc (shift m) f)) := rfl
        _ = affectedB (head0 m) (faceSet c) := hsig
        _ = true := haff
    rcases hcase' with ⟨haff', heq'⟩ | ⟨haff', heq'⟩
    · rw [hhead] at haff'
      simp [haff1] at haff'
    · rw [heq']
      congr 1
      apply Cubie.ext_colors
      · rfl
      · intro f
        show relabelColors (loopFun cyc (shift (reverseMove m)))
            (relabelColors (loopFun cyc (shift m)) c.colors) f = c.colors f
        rw [relabelColors_apply cyc _ hcyc hksr _ f]
        rw [relabelColors_apply cyc _ hcyc hks _ _]
        rw [sigma_inv cyc (shift m) (shift (reverseMove m)) hcyc hsh f]

/-! Lifting to whole states and whole sequences. -/

lemma cubiesRotate1_inverse (t : Str) (ht : wfToken t = true) (s : List Cubie)
    (hs : ∀ c ∈ s, wfCubie c = true) :
    ∃ s1, cubiesRotate1 t s = some s1 ∧ (∀ c ∈ s1, wfCubie c = true) ∧
      cubiesRotate1 (reverseMove t) s1 = some s := by
  induction s with
  | nil => exact ⟨[], rfl, by simp, rfl⟩
  | cons c cs ih =>
    obtain ⟨c1, hc1, hwf1, hc1r⟩ :=
      cubie_token_inverse t ht c (hs c (List.mem_cons_self c cs))
    obtain ⟨s1, hs1, hwfs1, hs1r⟩ := ih (fun d hd => hs d (List.mem_cons_of_mem c hd))
    refine ⟨c1 :: s1, ?_, ?_, ?_⟩
    · simp [cubiesRotate1, hc1, hs1]
    · intro d hd
      rcases List.mem_cons.mp hd with rfl | hd
      · exact hwf1
      · exact hwfs1 d hd
    · simp [cubiesRotate1, hc1r, hs1r]

lemma rotateTokens_append (s : List Cubie) (a b : List Str) :
    rotateTokens s (a ++ b) =
      match rotateTokens s a with
      | some s' => rotateTokens s' b
      | none => none := by
  induction a generalizing s with
  | nil => rfl
  | cons t ts ih =>
    show rotateTokens s (t :: (ts ++ b)) = _
    cases h : cubiesRotate1 t s with
    | some s' => simp [rotateTokens, h, ih]
    | none => simp [rotateTokens, h]

/-- Sequence-level inverse over explicit token lists. -/
lemma tokens_inverse (ts : List Str) (hts : ∀ t ∈ ts, wfToken t = true)
    (s : List Cubie) (hs : ∀ c ∈ s, wfCubie c = true) :
    ∃ s1, rotateTokens s ts = some s1 ∧ (∀ c ∈ s1, wfCubie c = true) ∧
      rotateTokens s1 ((ts.map reverseMove).reverse) = some s := by
  induction ts generalizing s with
  | nil => exact ⟨s, rfl, hs, rfl⟩
  | cons t ts ih =>
    obtain ⟨s1, h1, hw1, h1r⟩ := cubiesRotate1_inverse t (hts t (by simp)) s hs
    obtain ⟨s2, h2, hw2, h2r⟩ := ih (fun u hu => hts u (by simp [hu])) s1 hw1
    refine ⟨s2, ?_, hw2, ?_⟩
    · simp [rotateTokens, h1, h2]
    · have hsplit : ((t :: ts).map reverseMove).reverse =
          (ts.map reverseMove).reverse ++ [reverseMove t] := by simp
      rw [hsplit, rotateTokens_append, h2r]
      simp [rotateTokens, h1r]

/-! Characters of recognized tokens are never whitespace, so joining with
single spaces and re-splitting is the identity. -/

lemma recognizedHead_not_ws (h : Char) (hr : recognizedHead h = true) :
    isWs h = false := by
  by_contra hcon
  rw [Bool.not_eq_false] at hcon
  have hts : h.toNat = 32 ∨ h.toNat = 9 ∨ h.toNat = 10 ∨ h.toNat = 13 ∨
      h.toNat = 11 ∨ h.toNat = 12 := by
    simpa [isWs, or_assoc] using hcon
  have hup : upChar h = h := by
    unfold upChar
    rw [if_neg]
    rcases hts with ht | ht | ht | ht | ht | ht <;> omega
  unfold recognizedHead groupCycle at hr
  rw [hup] at hr
  by_cases h1 : memChar h ['U', 'D', 'Y', 'E'] = true
  · rw [memChar_eq_true_iff] at h1
    simp only [List.mem_cons, List.not_mem_nil, or_false] at h1
    rcases h1 with rfl | rfl | rfl | rfl <;> exact absurd hts (by decide)
  · by_cases h2 : memChar h ['R', 'L', 'X', 'M'] = true
    · rw [memChar_eq_true_iff] at h2
      simp only [List.mem_cons, List.not_mem_nil, or_false] at h2
      rcases h2 with rfl | rfl | rfl | rfl <;> exact absurd hts (by decide)
    · by_cases h3 : memChar h ['F', 'B', 'Z', 'S'] = true
      · rw [memChar_eq_true_iff] at h3
        simp only [List.mem_cons, List.not_mem_nil, or_false] at h3
        rcases h3 with rfl | rfl | rfl | rfl <;> exact absurd hts (by decide)
      · rw [if_neg h1, if_neg h2, if_neg h3] at hr
        simp at hr

lemma wfToken_chars (m : Str) (hm : wfToken m = true) :
    m ≠ [] ∧ ∀ ch ∈ m, isWs ch = false := by
  obtain ⟨h, hr, hs⟩ := wfToken_shape m hm
  have hh := recognizedHead_not_ws h hr
  rcases hs with rfl | rfl | rfl | rfl
  · refine ⟨by simp, ?_⟩
    intro ch hch
    simp only [List.mem_cons, List.not_mem_nil, or_false] at hch
    subst hch
    exact hh
  · refine ⟨by simp, ?_⟩
    intro ch hch
    simp only [List.mem_cons, List.not_mem_nil, or_false] at hch
    rcases hch with rfl | rfl
    · exact hh
    · decide
  · refine ⟨by simp, ?_⟩
    intro ch hch
    simp only [List.mem_cons, List.not_mem_nil, or_false] at hch
    rcases hch with rfl | rfl
    · exact hh
    · decide
  · refine ⟨by simp, ?_⟩
    intro ch hch
    simp only [List.mem_cons, List.not_mem_nil, or_false] at hch
    rcases hch with rfl | rfl | rfl
    · exact hh
    · decide
    · decide

lemma splitWsAux_noWs (t : Str) (ht : ∀ ch ∈ t, isWs ch = false) (rest : Str)
    (acc : Str) : splitWsAux (t ++ rest) acc = splitWsAux rest (t.reverse ++ acc) := by
  induction t generalizing acc with
  | nil => simp
  | cons ch t ih =>
    have hch : isWs ch = false := ht ch (by simp)
    show splitWsAux (ch :: (t ++ rest)) acc = _
    rw [show splitWsAux (ch :: (t ++ rest)) acc =
        (if isWs ch then
          (if acc.isEmpty then splitWsAux (t ++ rest) []
           else acc.reverse :: splitWsAux (t ++ rest) [])
         else splitWsAux (t ++ rest) (ch :: acc)) from rfl]
    rw [hch]
    simp only [Bool.false_eq_true, if_false]
    rw [ih (fun d hd => ht d (by simp [hd])) (ch :: acc)]
    simp

lemma splitWs_joinSpace :
    ∀ ts : List Str, (∀ t ∈ ts, t ≠ [] ∧ ∀ ch ∈ t, isWs ch = false) →
      splitWs (joinSpace ts) = ts := by
  intro ts
  induction ts with
  | nil => intro _; rfl
  | cons t ts ih =>
    intro h
    obtain ⟨hne, hch⟩ := h t (by simp)
    cases ts with
    | nil =>
      show splitWsAux t [] = [t]
      have h2 := splitWsAux_noWs t hch [] []
      rw [List.append_nil, List.append_nil] at h2
      rw [h2]
      show (if t.reverse.isEmpty then [] else [t.reverse.reverse]) = [t]
      simp [hne]
    | cons u ts' =>
      show splitWsAux (t ++ spChar :: joinSpace (u :: ts')) [] = t :: u :: ts'
      rw [splitWsAux_noWs t hch _ [], List.append_nil]
      rw [show splitWsAux (spChar :: joinSpace (u :: ts')) t.reverse =
          (if isWs spChar then
            (if t.reverse.isEmpty then splitWsAux (joinSpace (u :: ts')) []
             else t.reverse.reverse :: splitWsAux (joinSpace (u :: ts')) [])
           else splitWsAux (joinSpace (u :: ts')) (spChar :: t.reverse)) from rfl]
      rw [(by decide : isWs spChar = true)]
      simp only [if_true]
      have hrne : t.reverse.isEmpty = false := by simp [hne]
      rw [hrne]
      simp only [Bool.false_eq_true, if_false, List.reverse_reverse]
      have := ih (fun v hv => h v (by simp [hv]))
      rw [show splitWsAux (joinSpace (u :: ts')) [] = splitWs (joinSpace (u :: ts')) from rfl,
        this]

/-! Claim C1, C7, C9, C10. -/

/-- C1: for every whitespace-separated sequence of recognized tokens and
every constructible state, rotating by the sequence and then by
`reverse_moves` of it returns exactly the original state (every piece
holds the same category and face-to-color map as before). -/
theorem C1_inverse_law (S : Str) (hS : ∀ t ∈ splitWs S, wfToken t = true)
    (s : List Cubie) (hs : ∀ c ∈ s, wfCubie c = true) :
    ∃ s1, cubeRotate s S = some s1 ∧ cubeRotate s1 (reverse_moves S) = some s := by
  obtain ⟨s1, h1, hw1, h1r⟩ := tokens_inverse (splitWs S) hS s hs
  refine ⟨s1, h1, ?_⟩
  have hround : splitWs (joinSpace (((splitWs S).map reverseMove).reverse)) =
      ((splitWs S).map reverseMove).reverse := by
    apply splitWs_joinSpace
    intro t ht
    simp only [List.mem_reverse, List.mem_map] at ht
    obtain ⟨u, hu, rfl⟩ := ht
    obtain ⟨_, hwfr, _, _, _⟩ := token_data u (hS u hu)
    exact wfToken_chars _ hwfr
  show rotateTokens s1 (splitWs (joinSpace (((splitWs S).map reverseMove).reverse))) =
    some s
  rw [hround]
  exact h1r

theorem C1_inverse_law_witness :
    (∀ t ∈ splitWs seqRURU, wfToken t = true) ∧
    (∀ c ∈ solvedCubies, wfCubie c = true) ∧
    (∃ s1, cubeRotate solvedCubies seqRURU = some s1 ∧
      cubeRotate s1 (reverse_moves seqRURU) = some solvedCubies) :=
  ⟨by decide, by decide, C1_inverse_law seqRURU (by decide) solvedCubies (by decide)⟩

/-- C9: rotating any state by the empty string leaves every piece exactly
as it was and does not fail. -/
theorem C9_identity_move (s : List Cubie) : cubeRotate s [] = some s := rfl

/-- C7: `reverse_moves` splits its input on whitespace, reverses the token
order and inverts each token independently: a token ending in `2` or `2'`
maps to itself, a primed one-letter token to its unprimed form, a plain
one-letter token to its primed form; in particular the reverse of
"R U R' U'" is "U R U' R'". -/
theorem C7_reverse_spec :
    (∀ S : Str, reverse_moves S = joinSpace (((splitWs S).map reverseMove).reverse)) ∧
    (∀ m : Str, (endsWith m [cTwo] || endsWith m [cTwo, cQuote]) = true →
      reverseMove m = m) ∧
    (∀ h : Char, h ≠ cTwo → reverseMove [h, cQuote] = [h]) ∧
    (∀ h : Char, h ≠ cTwo → h ≠ cQuote → reverseMove [h] = [h, cQuote]) ∧
    reverse_moves seqRURU = seqURUR := by
  refine ⟨fun S => rfl, ?_, reverseMove_prime, reverseMove_single, by decide⟩
  intro m hm
  unfold reverseMove
  simp [hm]

theorem C7_reverse_spec_witness :
    (endsWith ['R', cTwo] [cTwo] || endsWith ['R', cTwo] [cTwo, cQuote]) = true ∧
    reverseMove ['R', cTwo] = ['R', cTwo] :=
  ⟨by decide, C7_reverse_spec.2.1 ['R', cTwo] (by decide)⟩

/-- C10: on a sequence of recognized tokens joined by single spaces,
`reverse_moves` is an involution. -/
theorem C10_reverse_involution (ts : List Str) (hts : ∀ t ∈ ts, wfToken t = true) :
    reverse_moves (reverse_moves (joinSpace ts)) = joinSpace ts := by
  have hchars : ∀ t ∈ ts, t ≠ [] ∧ ∀ ch ∈ t, isWs ch = false :=
    fun t ht => wfToken_chars t (hts t ht)
  have h1 : splitWs (joinSpace ts) = ts := splitWs_joinSpace ts hchars
  unfold reverse_moves
  rw [h1]
  have hchars2 : ∀ t ∈ (ts.map reverseMove).reverse,
      t ≠ [] ∧ ∀ ch ∈ t, isWs ch = false := by
    intro t ht
    simp only [List.mem_reverse, List.mem_map] at ht
    obtain ⟨u, hu, rfl⟩ := ht
    obtain ⟨_, hwfr, _, _, _⟩ := token_data u (hts u hu)
    exact wfToken_chars _ hwfr
  rw [splitWs_joinSpace _ hchars2]
  congr 1
  rw [List.map_reverse, List.reverse_reverse, List.map_map]
  have hmapid : ∀ l : List Str, (∀ t ∈ l, wfToken t = true) →
      l.map (reverseMove ∘ reverseMove) = l := by
    intro l
    induction l with
    | nil => intro _; rfl
    | cons a l ih =>
      intro hl
      simp only [List.map_cons, Function.comp_apply]
      rw [(token_data a (hl a (by simp))).2.2.2.1,
        ih (fun u hu => hl u (by simp [hu]))]
  exact hmapid ts hts

theorem C10_reverse_involution_witness :
    (∀ t ∈ [['R'], ['U'], ['R', cQuote], ['U', cQuote]], wfToken t = true) ∧
    reverse_moves (reverse_moves
      (joinSpace [['R'], ['U'], ['R', cQuote], ['U', cQuote]])) =
      joinSpace [['R'], ['U'], ['R', cQuote], ['U', cQuote]] :=
  ⟨by decide, C10_reverse_involution [['R'], ['U'], ['R', cQuote], ['U', cQuote]]
    (by decide)⟩

/-! Claim C4 (code behavior on a malformed token) and claim C2. -/

/-- C4, code behavior: the malformed token "R3" is not rejected;
`Cube.rotate` silently applies it exactly like the move "R" (its suffix
parse falls through to a plain quarter turn), so no `InvalidMove`-style
failure occurs. -/
theorem C4_code_divergence :
    cubeRotate solvedCubies tokR3 = cubeRotate solvedCubies ['R'] ∧
    (cubeRotate solvedCubies tokR3).isSome = true := by
  constructor
  · decide
  · decide

lemma claimMagnitude_eq (m : Str) : claimMagnitude m = direction m := rfl

lemma shift_eq_claim (m : Str) : shift m = claimSign (head0 m) * claimMagnitude m := by
  rw [claimMagnitude_eq]
  unfold shift claimSign chirality
  by_cases hch :
      memChar (upChar (head0 m)) ['U', 'R', 'F', 'X', 'Y', 'Z', 'M', 'E', 'S'] = true
  · rw [if_pos hch, if_pos hch, one_mul]
  · rw [if_neg hch, if_neg hch, neg_one_mul]

lemma claimCycle_eq_groupCycle (c : Char) : claimCycle c = groupCycle c := by
  unfold claimCycle groupCycle
  by_cases h1 : memChar (upChar c) ['R', 'L', 'X', 'M'] = true
  · have h0 : memChar (upChar c) ['U', 'D', 'Y', 'E'] = false := by
      rw [memChar_eq_true_iff] at h1
      simp only [List.mem_cons, List.not_mem_nil, or_false] at h1
      rcases h1 with h1 | h1 | h1 | h1 <;> rw [h1] <;> decide
    rw [if_pos h1, if_neg (by simp [h0]), if_pos h1]
    rfl
  · rw [if_neg h1]
    by_cases h2 : memChar (upChar c) ['U', 'D', 'Y', 'E'] = true
    · rw [if_pos h2, if_pos h2]
      rfl
    · rw [if_neg h2, if_neg h2, if_neg h1]
      by_cases h3 : memChar (upChar c) ['F', 'B', 'Z', 'S'] = true
      · rw [if_pos h3, if_pos h3]
        rfl
      · rw [if_neg h3, if_neg h3]

/-- C2: whenever a token's leading character identifies an axis group
(with the claim's cycles), the relabeling map sends the i-th cycle face to
the face (i + sign × magnitude) mod 4 positions along the cycle, with
magnitude 2 for `2`/`2'` suffixes, -1 for a bare prime, +1 otherwise, and
sign fixed by case-insensitive membership in {U,R,F,X,Y,Z,M,E,S}; the
axis's two poles are absent from the map. -/
theorem C2_rotation_loop (m : Str) (cyc : List Face)
    (hcyc : claimCycle (head0 m) = some cyc) :
    ∃ loop, rotation_loop m = some loop ∧
      (∀ i : Nat, i < 4 →
        loop (cyc.getD i Face.U) =
          some (cyc.getD
            (((i : Int) + claimSign (head0 m) * claimMagnitude m).emod 4).toNat
            Face.U)) ∧
      (∀ f : Face, f ∉ cyc → loop f = none) := by
  rw [claimCycle_eq_groupCycle] at hcyc
  have hc := groupCycle_cases _ _ hcyc
  refine ⟨loopFun cyc (shift m), ?_, ?_, ?_⟩
  · unfold rotation_loop
    rw [hcyc]
  · intro i hi
    rw [← shift_eq_claim]
    rcases hc with rfl | rfl | rfl <;> interval_cases i <;> rfl
  · intro f hf
    rcases hc with rfl | rfl | rfl <;> cases f <;>
      first
        | rfl
        | exact absurd (by decide) hf

theorem C2_rotation_loop_witness :
    claimCycle (head0 (['R'] : Str)) = some [Face.U, Face.B, Face.D, Face.F] ∧
    (∃ loop, rotation_loop ['R'] = some loop ∧
      (∀ i : Nat, i < 4 →
        loop (([Face.U, Face.B, Face.D, Face.F] : List Face).getD i Face.U) =
          some (([Face.U, Face.B, Face.D, Face.F] : List Face).getD
            (((i : Int) +
              claimSign (head0 (['R'] : Str)) * claimMagnitude ['R']).emod 4).toNat
            Face.U)) ∧
      (∀ f : Face, f ∉ ([Face.U, Face.B, Face.D, Face.F] : List Face) → loop f = none)) :=
  ⟨by decide, C2_rotation_loop ['R'] [Face.U, Face.B, Face.D, Face.F] (by decide)⟩

/-! Claim C3. -/

/-- C3: for a constructible piece and a recognized token, `Cubie.rotate`
returns the piece unchanged exactly when the piece is unaffected by the
move's kind (uppercase outer turn: sticker on that face; lowercase wide
turn: no sticker on the opposite face; M/E/S slice: no sticker on either
pole; X/Y/Z rotation: always affected), and otherwise returns a new piece
of the same category with the (face, color) pairs re-keyed through the
relabeling map, pairs outside the map kept as-is. -/
theorem C3_transform (c : Cubie) (hc : wfCubie c = true) (m : Str)
    (hm : wfToken m = true) :
    (∀ f : Face, faceOfChar? (head0 m) = some f →
      (hasFace c f = false → cubieRotate c m = some c) ∧
      (hasFace c f = true → ∃ loop, rotation_loop m = some loop ∧
        cubieRotate c m = some ⟨c.cubie_type, relabelColors loop c.colors⟩)) ∧
    (∀ f : Face, lowFaceOf? (head0 m) = some f →
      (hasFace c (OPPOSITE_FACE f) = true → cubieRotate c m = some c) ∧
      (hasFace c (OPPOSITE_FACE f) = false → ∃ loop, rotation_loop m = some loop ∧
        cubieRotate c m = some ⟨c.cubie_type, relabelColors loop c.colors⟩)) ∧
    (∀ poles : List Face, MIDDLE_LAYER_AXIS? (head0 m) = some poles →
      (poles.any (fun p => hasFace c p) = true → cubieRotate c m = some c) ∧
      (poles.any (fun p => hasFace c p) = false → ∃ loop, rotation_loop m = some loop ∧
        cubieRotate c m = some ⟨c.cubie_type, relabelColors loop c.colors⟩)) ∧
    (memChar (head0 m) ['X', 'Y', 'Z', 'x', 'y', 'z'] = true →
      ∃ loop, rotation_loop m = some loop ∧
        cubieRotate c m = some ⟨c.cubie_type, relabelColors loop c.colors⟩) := by
  obtain ⟨hr, _, _, _, _⟩ := token_data m hm
  obtain ⟨cyc, hg⟩ : ∃ cyc, groupCycle (head0 m) = some cyc := by
    unfold recognizedHead at hr
    exact Option.isSome_iff_exists.mp hr
  have hcyc := groupCycle_cases _ _ hg
  have hloop : rotation_loop m = some (loopFun cyc (shift m)) := by
    unfold rotation_loop
    rw [hg]
  have hrel : doRelabel c m =
      some ⟨c.cubie_type, relabelColors (loopFun cyc (shift m)) c.colors⟩ := by
    unfold doRelabel
    rw [hloop]
    exact mkCubie_some _ _
      (by rw [colorCount_relabel cyc (shift m) hcyc (shift_isShift m hm)]
          exact wfCubie_count c hc)
  refine ⟨?_, ?_, ?_, ?_⟩
  · intro f hf
    constructor
    · intro hface
      unfold cubieRotate
      simp only [hf, hface, Bool.false_eq_true, if_false]
    · intro hface
      refine ⟨loopFun cyc (shift m), hloop, ?_⟩
      unfold cubieRotate
      simp only [hf, hface, if_true]
      exact hrel
  · intro f hf
    have hfo : faceOfChar? (head0 m) = none := by
      rcases lowFaceOf?_inv _ _ hf with ⟨he, _⟩ | ⟨he, _⟩ | ⟨he, _⟩ | ⟨he, _⟩ |
        ⟨he, _⟩ | ⟨he, _⟩ <;> rw [he] <;> decide
    constructor
    · intro hface
      unfold cubieRotate
      simp only [hfo, hf, hface, if_true]
    · intro hface
      refine ⟨loopFun cyc (shift m), hloop, ?_⟩
      unfold cubieRotate
      simp only [hfo, hf, hface, Bool.false_eq_true, if_false]
      exact hrel
  · intro poles hp
    have hfo : faceOfChar? (head0 m) = none := by
      rcases axisPoles_inv _ _ hp with ⟨he, _⟩ | ⟨he, _⟩ | ⟨he, _⟩ <;> rw [he] <;> decide
    have hlo : lowFaceOf? (head0 m) = none := by
      rcases axisPoles_inv _ _ hp with ⟨he, _⟩ | ⟨he, _⟩ | ⟨he, _⟩ <;> rw [he] <;> decide
    constructor
    · intro hany
      unfold cubieRotate
      simp only [hfo, hlo, hp, hany, if_true]
    · intro hany
      refine ⟨loopFun cyc (shift m), hloop, ?_⟩
      unfold cubieRotate
      simp only [hfo, hlo, hp, hany, Bool.false_eq_true, if_false]
      exact hrel
  · intro hx
    rw [memChar_eq_true_iff] at hx
    simp only [List.mem_cons, List.not_mem_nil, or_false] at hx
    have hfo : faceOfChar? (head0 m) = none := by
      rcases hx with he | he | he | he | he | he <;> rw [he] <;> decide
    have hlo : lowFaceOf? (head0 m) = none := by
      rcases hx with he | he | he | he | he | he <;> rw [he] <;> decide
    have hax : MIDDLE_LAYER_AXIS? (head0 m) = none := by
      rcases hx with he | he | he | he | he | he <;> rw [he] <;> decide
    refine ⟨loopFun cyc (shift m), hloop, ?_⟩
    unfold cubieRotate
    simp only [hfo, hlo, hax]
    exact hrel

theorem C3_transform_witness :
    wfCubie ⟨CubieType.CENTER, mkColors [(Face.U, white)]⟩ = true ∧
    wfToken ['R'] = true ∧
    faceOfChar? (head0 (['R'] : Str)) = some Face.R ∧
    hasFace ⟨CubieType.CENTER, mkColors [(Face.U, white)]⟩ Face.R = false ∧
    cubieRotate ⟨CubieType.CENTER, mkColors [(Face.U, white)]⟩ ['R'] =
      some ⟨CubieType.CENTER, mkColors [(Face.U, white)]⟩ :=
  ⟨by decide, by decide, by decide, by decide,
    ((C3_transform ⟨CubieType.CENTER, mkColors [(Face.U, white)]⟩ (by decide) ['R']
      (by decide)).1 Face.R (by decide)).1 (by decide)⟩

/-! Claim C8: order-4 closure of quarter turns. -/

lemma cubieRotate_unaffected (m : Str) (hm : wfToken m = true) (c : Cubie)
    (hc : wfCubie c = true) (ha : affectedB (head0 m) (faceSet c) = false) :
    cubieRotate c m = some c := by
  obtain ⟨cyc, hg, hcyc, hcase⟩ := cubieRotate_char m hm c hc
  rcases hcase with ⟨_, heq⟩ | ⟨haff, _⟩
  · exact heq
  · simp [ha] at haff

lemma cubieRotate_affected (m : Str) (hm : wfToken m = true) (c : Cubie)
    (hc : wfCubie c = true) (cyc : List Face) (hg : groupCycle (head0 m) = some cyc)
    (ha : affectedB (head0 m) (faceSet c) = true) :
    cubieRotate c m =
      some ⟨c.cubie_type, relabelColors (loopFun cyc (shift m)) c.colors⟩ := by
  obtain ⟨cyc', hg', hcyc', hcase⟩ := cubieRotate_char m hm c hc
  have hcc : cyc' = cyc := by
    rw [hg] at hg'
    exact (Option.some.inj hg').symm
  rcases hcase with ⟨haff, _⟩ | ⟨_, heq⟩
  · simp [ha] at haff
  · rw [hcc] at heq
    exact heq

lemma wfCubie_relabel (cyc : List Face) (k : Int) (hcyc : IsCycle cyc) (hk : IsShift k)
    (c : Cubie) (hc : wfCubie c = true) :
    wfCubie ⟨c.cubie_type, relabelColors (loopFun cyc k) c.colors⟩ = true := by
  apply wfCubie_intro
  show colorCount (relabelColors (loopFun cyc k) c.colors) = expected_colors c.cubie_type
  rw [colorCount_relabel cyc k hcyc hk]
  exact wfCubie_count c hc

lemma affectedB_relabel (hch : Char) (cyc : List Face) (k : Int)
    (hg : groupCycle hch = some cyc) (hk : IsShift k) (c : Cubie) :
    affectedB hch (faceSet ⟨c.cubie_type, relabelColors (loopFun cyc k) c.colors⟩) =
      affectedB hch (faceSet c) := by
  rw [faceSet_relabel_fun c.cubie_type cyc k (groupCycle_cases _ _ hg) hk c.colors]
  exact affectedB_sigma hch cyc k hg hk (faceSet c)

lemma cubie_four (hch : Char) (hr : recognizedHead hch = true) (c : Cubie)
    (hc : wfCubie c = true) :
    ∃ c1 c2 c3, cubieRotate c [hch] = some c1 ∧ cubieRotate c1 [hch] = some c2 ∧
      cubieRotate c2 [hch] = some c3 ∧ cubieRotate c3 [hch] = some c ∧
      cubieRotate c [hch, cTwo] = some c2 := by
  have hm1 : wfToken [hch] = true := wfToken_single hch hr
  have hm2 : wfToken [hch, cTwo] = true := wfToken_two hch hr
  obtain ⟨cyc, hg⟩ : ∃ cyc, groupCycle hch = some cyc := by
    unfold recognizedHead at hr
    exact Option.isSome_iff_exists.mp hr
  have hcyc := groupCycle_cases _ _ hg
  have h2 := recognizedHead_ne_two hch hr
  have hq := recognizedHead_ne_quote hch hr
  have hg1 : groupCycle (head0 [hch]) = some cyc := hg
  have hg2 : groupCycle (head0 [hch, cTwo]) = some cyc := hg
  have hks : (shift [hch] = 1 ∧ shift [hch, cTwo] = 2) ∨
      (shift [hch] = -1 ∧ shift [hch, cTwo] = -2) := by
    by_cases hchi : chirality hch = true
    · left
      constructor <;>
        simp [shift, head0_cons, hchi, direction_single hch h2 hq, direction_two hch]
    · rw [Bool.not_eq_true] at hchi
      right
      constructor <;>
        simp [shift, head0_cons, hchi, direction_single hch h2 hq, direction_two hch]
  have hk1 : IsShift (shift [hch]) := by
    rcases hks with ⟨e, _⟩ | ⟨e, _⟩ <;> rw [e] <;> simp [IsShift]
  have hk14 : shift [hch] = 1 ∨ shift [hch] = -1 := by
    rcases hks with ⟨e, _⟩ | ⟨e, _⟩ <;> rw [e] <;> simp
  by_cases ha : affectedB hch (faceSet c) = true
  · have hw1 := wfCubie_relabel cyc (shift [hch]) hcyc hk1 c hc
    have ha1 : affectedB hch
        (faceSet ⟨c.cubie_type, relabelColors (loopFun cyc (shift [hch])) c.colors⟩) =
        true := by
      rw [affectedB_relabel hch cyc (shift [hch]) hg hk1 c]
      exact ha
    have hw2 := wfCubie_relabel cyc (shift [hch]) hcyc hk1 _ hw1
    have ha2 : affectedB hch
        (faceSet ⟨c.cubie_type, relabelColors (loopFun cyc (shift [hch]))
          (relabelColors (loopFun cyc (shift [hch])) c.colors)⟩) = true := by
      have := affectedB_relabel hch cyc (shift [hch]) hg hk1
        ⟨c.cubie_type, relabelColors (loopFun cyc (shift [hch])) c.colors⟩
      rw [this]
      exact ha1
    have hw3 := wfCubie_relabel cyc (shift [hch]) hcyc hk1 _ hw2
    have ha3 : affectedB hch
        (faceSet ⟨c.cubie_type, relabelColors (loopFun cyc (shift [hch]))
          (relabelColors (loopFun cyc (shift [hch]))
            (relabelColors (loopFun cyc (shift [hch])) c.colors))⟩) = true := by
      have := affectedB_relabel hch cyc (shift [hch]) hg hk1
        ⟨c.cubie_type, relabelColors (loopFun cyc (shift [hch]))
          (relabelColors (loopFun cyc (shift [hch])) c.colors)⟩
      rw [this]
      exact ha2
    refine ⟨⟨c.cubie_type, relabelColors (loopFun cyc (shift [hch])) c.colors⟩,
      ⟨c.cubie_type, relabelColors (loopFun cyc (shift [hch]))
        (relabelColors (loopFun cyc (shift [hch])) c.colors)⟩,
      ⟨c.cubie_type, relabelColors (loopFun cyc (shift [hch]))
        (relabelColors (loopFun cyc (shift [hch]))
          (relabelColors (loopFun cyc (shift [hch])) c.colors))⟩,
      cubieRotate_affected [hch] hm1 c hc cyc hg1 ha,
      cubieRotate_affected [hch] hm1 _ hw1 cyc hg1 ha1,
      cubieRotate_affected [hch] hm1 _ hw2 cyc hg1 ha2, ?_, ?_⟩
    · rw [cubieRotate_affected [hch] hm1 _ hw3 cyc hg1 ha3]
      congr 1
      apply Cubie.ext_colors
      · rfl
      · intro f
        show relabelColors (loopFun cyc (shift [hch]))
          (relabelColors (loopFun cyc (shift [hch]))
            (relabelColors (loopFun cyc (shift [hch]))
              (relabelColors (loopFun cyc (shift [hch])) c.colors))) f = c.colors f
        rw [relabelColors_apply cyc _ hcyc hk1, relabelColors_apply cyc _ hcyc hk1,
          relabelColors_apply cyc _ hcyc hk1, relabelColors_apply cyc _ hcyc hk1]
        exact congrArg c.colors (sigma_four cyc (shift [hch]) hcyc hk14 f)
    · rw [cubieRotate_affected [hch, cTwo] hm2 c hc cyc hg2 ha]
      congr 1
      apply Cubie.ext_colors
      · rfl
      · intro f
        show relabelColors (loopFun cyc (shift [hch, cTwo])) c.colors f =
          relabelColors (loopFun cyc (shift [hch]))
            (relabelColors (loopFun cyc (shift [hch])) c.colors) f
        rw [relabelColors_apply cyc _ hcyc hk1, relabelColors_apply cyc _ hcyc hk1,
          relabelColors_apply cyc _ hcyc
            (by rcases hks with ⟨_, e⟩ | ⟨_, e⟩ <;> rw [e] <;> simp [IsShift])]
        exact (congrArg c.colors (sigma_double cyc (shift [hch]) (shift [hch, cTwo])
          hcyc hks f)).symm
  · rw [Bool.not_eq_true] at ha
    have e1 := cubieRotate_unaffected [hch] hm1 c hc ha
    have e2 := cubieRotate_unaffected [hch, cTwo] hm2 c hc ha
    exact ⟨c, c, c, e1, e1, e1, e1, e2⟩

lemma cubies_four (hch : Char) (hr : recognizedHead hch = true) (s : List Cubie)
    (hs : ∀ c ∈ s, wfCubie c = true) :
    ∃ s1 s2 s3, cubiesRotate1 [hch] s = some s1 ∧ cubiesRotate1 [hch] s1 = some s2 ∧
      cubiesRotate1 [hch] s2 = some s3 ∧ cubiesRotate1 [hch] s3 = some s ∧
      cubiesRotate1 [hch, cTwo] s = some s2 := by
  induction s with
  | nil => exact ⟨[], [], [], rfl, rfl, rfl, rfl, rfl⟩
  | cons c cs ih =>
    obtain ⟨c1, c2, c3, e1, e2, e3, e4, e5⟩ := cubie_four hch hr c (hs c (by simp))
    obtain ⟨s1, s2, s3, f1, f2, f3, f4, f5⟩ := ih (fun d hd => hs d (by simp [hd]))
    exact ⟨c1 :: s1, c2 :: s2, c3 :: s3, by simp [cubiesRotate1, e1, f1],
      by simp [cubiesRotate1, e2, f2], by simp [cubiesRotate1, e3, f3],
      by simp [cubiesRotate1, e4, f4], by simp [cubiesRotate1, e5, f5]⟩

/-- C8: for any recognized plain quarter-turn token, four applications of
`Cube.rotate` return every constructible state to itself, and two
applications equal one application of the `2`-suffixed token. -/
theorem C8_order_four (hch : Char) (hr : recognizedHead hch = true) (s : List Cubie)
    (hs : ∀ c ∈ s, wfCubie c = true) :
    ∃ s1 s2 s3, cubeRotate s [hch] = some s1 ∧ cubeRotate s1 [hch] = some s2 ∧
      cubeRotate s2 [hch] = some s3 ∧ cubeRotate s3 [hch] = some s ∧
      cubeRotate s [hch, cTwo] = some s2 := by
  have hns := recognizedHead_not_ws hch hr
  have hsp1 : splitWs [hch] = [[hch]] := by
    apply splitWs_joinSpace [[hch]]
    intro t ht
    simp only [List.mem_cons, List.not_mem_nil, or_false] at ht
    subst ht
    refine ⟨by simp, ?_⟩
    intro ch hc
    simp only [List.mem_cons, List.not_mem_nil, or_false] at hc
    subst hc
    exact hns
  have hsp2 : splitWs [hch, cTwo] = [[hch, cTwo]] := by
    apply splitWs_joinSpace [[hch, cTwo]]
    intro t ht
    simp only [List.mem_cons, List.not_mem_nil, or_false] at ht
    subst ht
    refine ⟨by simp, ?_⟩
    intro ch hc
    simp only [List.mem_cons, List.not_mem_nil, or_false] at hc
    rcases hc with rfl | rfl
    · exact hns
    · decide
  obtain ⟨s1, s2, s3, f1, f2, f3, f4, f5⟩ := cubies_four hch hr s hs
  refine ⟨s1, s2, s3, ?_, ?_, ?_, ?_, ?_⟩
  · show rotateTokens s (splitWs [hch]) = some s1
    rw [hsp1]
    simp [rotateTokens, f1]
  · show rotateTokens s1 (splitWs [hch]) = some s2
    rw [hsp1]
    simp [rotateTokens, f2]
  · show rotateTokens s2 (splitWs [hch]) = some s3
    rw [hsp1]
    simp [rotateTokens, f3]
  · show rotateTokens s3 (splitWs [hch]) = some s
    rw [hsp1]
    simp [rotateTokens, f4]
  · show rotateTokens s (splitWs [hch, cTwo]) = some s2
    rw [hsp2]
    simp [rotateTokens, f5]

theorem C8_order_four_witness :
    recognizedHead 'R' = true ∧ (∀ c ∈ solvedCubies, wfCubie c = true) ∧
    (∃ s1 s2 s3, cubeRotate solvedCubies ['R'] = some s1 ∧
      cubeRotate s1 ['R'] = some s2 ∧ cubeRotate s2 ['R'] = some s3 ∧
      cubeRotate s3 ['R'] = some solvedCubies ∧
      cubeRotate solvedCubies ['R', cTwo] = some s2) :=
  ⟨by decide, by decide, C8_order_four 'R' (by decide) solvedCubies (by decide)⟩

/-! Claims C5 and C6: invariants of reachable states. -/

lemma cubieRotate_type_wf (m : Str) (hm : wfToken m = true) (c : Cubie)
    (hc : wfCubie c = true) (c' : Cubie) (he : cubieRotate c m = some c') :
    wfCubie c' = true ∧ c'.cubie_type = c.cubie_type ∧
    (geomOK (faceSet c) = true → geomOK (faceSet c') = true) := by
  obtain ⟨cyc, hg, hcyc, hcase⟩ := cubieRotate_char m hm c hc
  have hk := shift_isShift m hm
  rcases hcase with ⟨_, heq⟩ | ⟨_, heq⟩
  · rw [he] at heq
    obtain rfl : c' = c := Option.some.inj heq
    exact ⟨hc, rfl, fun h => h⟩
  · rw [he] at heq
    obtain rfl : c' = ⟨c.cubie_type, relabelColors (loopFun cyc (shift m)) c.colors⟩ :=
      Option.some.inj heq
    refine ⟨wfCubie_relabel cyc (shift m) hcyc hk c hc, rfl, ?_⟩
    intro hgeo
    rw [faceSet_relabel_fun c.cubie_type cyc (shift m) hcyc hk c.colors]
    exact geomOK_sigma cyc (shift m) hcyc hk (faceSet c) hgeo

lemma position_relabel (t : CubieType) (cyc : List Face) (k : Int) (hcyc : IsCycle cyc)
    (hk : IsShift k) (cols : Face → Option Color) :
    position ⟨t, relabelColors (loopFun cyc k) cols⟩ =
      posSum (fun f => faceSet ⟨t, cols⟩ (sigma cyc k f)) := by
  unfold position
  rw [faceSet_relabel_fun t cyc k hcyc hk cols]

/-- Rotating two valid pieces of one state by the same token cannot merge
their positions: affectedness is determined by pole faces, which the
relabeling fixes, and the relabeling acts injectively on positions of
geometrically valid pieces. -/
lemma cubieRotate_pos_ne (m : Str) (hm : wfToken m = true) (c d : Cubie)
    (hcw : wfCubie c = true) (hdw : wfCubie d = true)
    (hcg : geomOK (faceSet c) = true) (hdg : geomOK (faceSet d) = true)
    (hne : position c ≠ position d) (c' d' : Cubie)
    (hec : cubieRotate c m = some c') (hed : cubieRotate d m = some d') :
    position c' ≠ position d' := by
  obtain ⟨cyc, hg, hcyc, hcasec⟩ := cubieRotate_char m hm c hcw
  obtain ⟨cyc', hg', hcyc', hcased⟩ := cubieRotate_char m hm d hdw
  have hcc : cyc' = cyc := by
    rw [hg] at hg'
    exact (Option.some.inj hg').symm
  rw [hcc] at hcased
  have hk := shift_isShift m hm
  rcases hcasec with ⟨hac, heqc⟩ | ⟨hac, heqc⟩ <;>
    rcases hcased with ⟨had, heqd⟩ | ⟨had, heqd⟩
  · rw [hec] at heqc
    rw [hed] at heqd
    rw [Option.some.inj heqc, Option.some.inj heqd]
    exact hne
  · rw [hec] at heqc
    rw [hed] at heqd
    rw [Option.some.inj heqc, Option.some.inj heqd]
    intro hpp
    rw [position_relabel d.cubie_type cyc (shift m) hcyc hk d.colors] at hpp
    have hfeq : faceSet c = fun f => faceSet d (sigma cyc (shift m) f) :=
      funext (fun f => posSum_inj_geomOK (faceSet c)
        (fun f => faceSet d (sigma cyc (shift m) f)) hcg
        (geomOK_sigma cyc (shift m) hcyc hk (faceSet d) hdg) hpp f)
    have hcontra : affectedB (head0 m) (faceSet c) = affectedB (head0 m) (faceSet d) := by
      rw [hfeq]
      exact affectedB_sigma (head0 m) cyc (shift m) hg hk (faceSet d)
    rw [hac, had] at hcontra
    exact absurd hcontra (by decide)
  · rw [hec] at heqc
    rw [hed] at heqd
    rw [Option.some.inj heqc, Option.some.inj heqd]
    intro hpp
    rw [position_relabel c.cubie_type cyc (shift m) hcyc hk c.colors] at hpp
    have hfeq : (fun f => faceSet c (sigma cyc (shift m) f)) = faceSet d :=
      funext (fun f => posSum_inj_geomOK
        (fun f => faceSet c (sigma cyc (shift m) f)) (faceSet d)
        (geomOK_sigma cyc (shift m) hcyc hk (faceSet c) hcg) hdg hpp f)
    have hcontra : affectedB (head0 m) (faceSet c) = affectedB (head0 m) (faceSet d) := by
      rw [← hfeq]
      exact (affectedB_sigma (head0 m) cyc (shift m) hg hk (faceSet c)).symm
    rw [hac, had] at hcontra
    exact absurd hcontra (by decide)
  · rw [hec] at heqc
    rw [hed] at heqd
    rw [Option.some.inj heqc, Option.some.inj heqd]
    intro hpp
    rw [position_relabel c.cubie_type cyc (shift m) hcyc hk c.colors,
      position_relabel d.cubie_type cyc (shift m) hcyc hk d.colors] at hpp
    have hptw := fun f => posSum_inj_geomOK
      (fun f => faceSet c (sigma cyc (shift m) f))
      (fun f => faceSet d (sigma cyc (shift m) f))
      (geomOK_sigma cyc (shift m) hcyc hk (faceSet c) hcg)
      (geomOK_sigma cyc (shift m) hcyc hk (faceSet d) hdg) hpp f
    apply hne
    have hfeq : faceSet c = faceSet d := by
      funext g
      obtain ⟨f, hf⟩ := sigma_surj cyc (shift m) hcyc hk g
      calc faceSet c g = faceSet c (sigma cyc (shift m) f) := by rw [hf]
        _ = faceSet d (sigma cyc (shift m) f) := hptw f
        _ = faceSet d g := by rw [hf]
    show posSum (faceSet c) = posSum (faceSet d)
    rw [hfeq]

lemma cubiesRotate1_forall2 (t : Str) (s s' : List Cubie)
    (h : cubiesRotate1 t s = some s') :
    List.Forall₂ (fun c c' => cubieRotate c t = some c') s s' := by
  induction s generalizing s' with
  | nil =>
    obtain rfl : s' = [] := by simpa [cubiesRotate1] using h.symm
    exact List.Forall₂.nil
  | cons c cs ih =>
    cases hc : cubieRotate c t with
    | none => simp [cubiesRotate1, hc] at h
    | some c1 =>
      cases hcs : cubiesRotate1 t cs with
      | none => simp [cubiesRotate1, hc, hcs] at h
      | some cs1 =>
        obtain rfl : s' = c1 :: cs1 := by simpa [cubiesRotate1, hc, hcs] using h.symm
        exact List.Forall₂.cons hc (ih cs1 hcs)

lemma forall2_mem_right {R : Cubie → Cubie → Prop} {l1 l2 : List Cubie}
    (h : List.Forall₂ R l1 l2) (b : Cubie) (hb : b ∈ l2) : ∃ a ∈ l1, R a b := by
  induction h with
  | nil => simp at hb
  | cons hR hrest ih =>
    rcases List.mem_cons.mp hb with rfl | hb
    · exact ⟨_, by simp, hR⟩
    · obtain ⟨a, ha, hr⟩ := ih hb
      exact ⟨a, by simp [ha], hr⟩

lemma countType_cons (tt : CubieType) (c : Cubie) (cs : List Cubie) :
    countType tt (c :: cs) = (if c.cubie_type = tt then 1 else 0) + countType tt cs := by
  by_cases h : c.cubie_type = tt <;>
    simp [countType, List.filter_cons, h, Nat.add_comm]

lemma rotate1_props (m : Str) (hm : wfToken m = true) (s : List Cubie)
    (hs : ∀ c ∈ s, wfCubie c = true ∧ geomOK (faceSet c) = true) (s' : List Cubie)
    (h : cubiesRotate1 m s = some s') :
    s'.length = s.length ∧ (∀ tt, countType tt s' = countType tt s) ∧
    (∀ c' ∈ s', wfCubie c' = true ∧ geomOK (faceSet c') = true) := by
  induction s generalizing s' with
  | nil =>
    obtain rfl : s' = [] := by simpa [cubiesRotate1] using h.symm
    exact ⟨rfl, fun tt => rfl, by simp⟩
  | cons c cs ih =>
    cases hc : cubieRotate c m with
    | none => simp [cubiesRotate1, hc] at h
    | some c1 =>
      cases hcs : cubiesRotate1 m cs with
      | none => simp [cubiesRotate1, hc, hcs] at h
      | some cs1 =>
        obtain rfl : s' = c1 :: cs1 := by simpa [cubiesRotate1, hc, hcs] using h.symm
        obtain ⟨hw, hty, hgeo⟩ :=
          cubieRotate_type_wf m hm c (hs c (by simp)).1 c1 hc
        obtain ⟨ihlen, ihcnt, ihmem⟩ := ih (fun d hd => hs d (by simp [hd])) cs1 hcs
        refine ⟨by simp [ihlen], ?_, ?_⟩
        · intro tt
          rw [countType_cons, countType_cons, hty, ihcnt tt]
        · intro d hd
          rcases List.mem_cons.mp hd with rfl | hd
          · exact ⟨hw, hgeo (hs c (by simp)).2⟩
          · exact ihmem d hd

lemma distinctPos_step (m : Str) (hm : wfToken m = true) (s : List Cubie)
    (hs : ∀ c ∈ s, wfCubie c = true ∧ geomOK (faceSet c) = true)
    (hd : distinctPos s = true) (s' : List Cubie) (h : cubiesRotate1 m s = some s') :
    distinctPos s' = true := by
  induction s generalizing s' with
  | nil =>
    obtain rfl : s' = [] := by simpa [cubiesRotate1] using h.symm
    rfl
  | cons c cs ih =>
    cases hc : cubieRotate c m with
    | none => simp [cubiesRotate1, hc] at h
    | some c1 =>
      cases hcs : cubiesRotate1 m cs with
      | none => simp [cubiesRotate1, hc, hcs] at h
      | some cs1 =>
        obtain rfl : s' = c1 :: cs1 := by simpa [cubiesRotate1, hc, hcs] using h.symm
        simp only [distinctPos, Bool.and_eq_true, List.all_eq_true] at hd ⊢
        obtain ⟨hd1, hd2⟩ := hd
        refine ⟨?_, ih (fun d hdm => hs d (by simp [hdm])) hd2 cs1 hcs⟩
        intro d1 hd1m
        obtain ⟨d, hdm, hrot⟩ :=
          forall2_mem_right (cubiesRotate1_forall2 m cs cs1 hcs) d1 hd1m
        have hne : position d ≠ position c := by
          have := hd1 d hdm
          simpa using this
        have := cubieRotate_pos_ne m hm d c (hs d (by simp [hdm])).1
          (hs c (by simp)).1 (hs d (by simp [hdm])).2 (hs c (by simp)).2 hne d1 c1 hrot hc
        simpa using this

lemma StateOK_rotate1 (m : Str) (hm : wfToken m = true) (s : List Cubie)
    (hok : StateOK s) (s' : List Cubie) (h : cubiesRotate1 m s = some s') :
    StateOK s' := by
  obtain ⟨hlen, hcen, hedg, hcor, hdis, hmem⟩ := hok
  obtain ⟨hlen', hcnt', hmem'⟩ := rotate1_props m hm s hmem s' h
  exact ⟨by rw [hlen', hlen], by rw [hcnt', hcen], by rw [hcnt', hedg],
    by rw [hcnt', hcor], distinctPos_step m hm s hmem hdis s' h, hmem'⟩

lemma StateOK_rotateTokens (ts : List Str) (hts : ∀ t ∈ ts, wfToken t = true)
    (s : List Cubie) (hok : StateOK s) (s' : List Cubie)
    (h : rotateTokens s ts = some s') : StateOK s' := by
  induction ts generalizing s with
  | nil =>
    obtain rfl : s' = s := by simpa [rotateTokens] using h.symm
    exact hok
  | cons t ts ih =>
    cases hc : cubiesRotate1 t s with
    | none => simp [rotateTokens, hc] at h
    | some s1 =>
      have h1 : rotateTokens s1 ts = some s' := by
        simpa [rotateTokens, hc] using h
      exact ih (fun u hu => hts u (by simp [hu]))
        s1 (StateOK_rotate1 t (hts t (by simp)) s hok s1 hc) h1

lemma reachable_StateOK (s : List Cubie) (h : Reachable s) : StateOK s := by
  induction h with
  | solved =>
    exact ⟨by decide, by decide, by decide, by decide, by decide, by decide⟩
  | step mv s' hwf hr hs ih =>
    exact StateOK_rotateTokens (splitWs mv) hwf _ ih s' hr

/-- C5: every piece of every state reachable from the solved cube by
recognized moves has sticker count fixed by its category, position
components in {-1, 0, 1} and as many nonzero components as stickers; and
constructing a piece whose sticker count does not match its category
fails. -/
theorem C5_piece_invariants :
    (∀ s, Reachable s → ∀ c ∈ s, cubieOK c) ∧
    (∀ (t : CubieType) (cols : Face → Option Color),
      colorCount cols ≠ expected_colors t → mkCubie t cols = none) := by
  constructor
  · intro s hreach c hc
    obtain ⟨_, _, _, _, _, hmem⟩ := reachable_StateOK s hreach
    obtain ⟨hw, hg⟩ := hmem c hc
    have hcount := wfCubie_count c hw
    refine ⟨hcount, ?_, ?_⟩
    · simp only [geomOK, Bool.and_eq_true] at hg
      exact hg.1
    · simp only [geomOK, Bool.and_eq_true, beq_iff_eq] at hg
      exact hg.2
  · intro t cols hne
    unfold mkCubie
    split_ifs with h1 h2
    · rfl
    · rfl
    · rfl

theorem C5_piece_invariants_witness :
    cubieOK ⟨CubieType.CENTER, mkColors [(Face.U, white)]⟩ ∧
    (colorCount (mkColors [(Face.U, white), (Face.R, red)]) ≠
      expected_colors CubieType.CENTER ∧
     mkCubie CubieType.CENTER (mkColors [(Face.U, white), (Face.R, red)]) = none) :=
  ⟨C5_piece_invariants.1 solvedCubies Reachable.solved _ (by decide),
   by decide,
   C5_piece_invariants.2 CubieType.CENTER (mkColors [(Face.U, white), (Face.R, red)])
     (by decide)⟩

/-- C6, counterexample to the claimed total: the claim (like the spec and
the docstring of `Cube._create_solved_cube`) says the solved state has
exactly 20 pieces while breaking them down as 6 centers, 12 edges and 8
corners; the code builds 6 + 12 + 8 = 26 pieces, so the total 20 is
false. -/
theorem C6_twenty_pieces_counterexample :
    solvedCubies.length = 26 ∧ ¬solvedCubies.length = 20 := by
  constructor
  · decide
  · decide

/-- C6, amended: the default solved state has exactly 26 pieces (6
centers, 12 edges, 8 corners is 26, not the claimed 20) with pairwise
distinct derived positions, and every rotate by recognized tokens from a
reachable state preserves the count, the category multiset and the
distinctness of positions. -/
theorem C6_twenty_pieces :
    (solvedCubies.length = 26 ∧ countType CubieType.CENTER solvedCubies = 6 ∧
     countType CubieType.EDGE solvedCubies = 12 ∧
     countType CubieType.CORNER solvedCubies = 8 ∧
     distinctPos solvedCubies = true) ∧
    (∀ s, Reachable s → ∀ (mv : Str) (s' : List Cubie),
      (∀ t ∈ splitWs mv, wfToken t = true) → cubeRotate s mv = some s' →
      s'.length = 26 ∧ countType CubieType.CENTER s' = 6 ∧
      countType CubieType.EDGE s' = 12 ∧ countType CubieType.CORNER s' = 8 ∧
      distinctPos s' = true) := by
  constructor
  · exact ⟨by decide, by decide, by decide, by decide, by decide⟩
  · intro s hreach mv s' hwf hrot
    obtain ⟨h1, h2, h3, h4, h5, _⟩ :=
      reachable_StateOK s' (Reachable.step mv s' hwf hrot hreach)
    exact ⟨h1, h2, h3, h4, h5⟩

theorem C6_twenty_pieces_witness :
    Reachable solvedCubies ∧ (∀ t ∈ splitWs ([] : Str), wfToken t = true) ∧
    cubeRotate solvedCubies [] = some solvedCubies ∧
    (solvedCubies.length = 26 ∧ countType CubieType.CENTER solvedCubies = 6 ∧
     countType CubieType.EDGE solvedCubies = 12 ∧
     countType CubieType.CORNER solvedCubies = 8 ∧
     distinctPos solvedCubies = true) :=
  ⟨Reachable.solved, by decide, by decide,
   C6_twenty_pieces.2 solvedCubies Reachable.solved [] solvedCubies (by decide)
     (by decide)⟩
